import Mathlib

/-!
# A verification development for `jeffbmartinez/matrix`

A shallow embedding of the Go package `matrix` (files `comparison.go`, `vector.go`,
`matrix.go`) followed by theorems about it.

## Modelling conventions

* `float64` is modelled by `Scalar`: NaN, the two infinities, and the finite values.
  Finite values are carried as exact rationals: finite arithmetic neither rounds nor
  overflows, and there is a single zero.  The behaviour of NaN and of the infinities under
  `+ - * / abs >` follows IEEE-754, which is what Go implements.
* Go slices are lists.  All slices that the package mutates in place are freshly allocated
  by the package itself, so in-place updates are modelled by list updates.
* A Go function returning `(T, error)` returns a pair `T × Option Error`; callers in the
  package that drop the error with `_` take the first component, as the source does.
* A run-time abort (index or slice bound out of range, `make` with a negative length) is
  modelled by `none` in an outer `Option`.
* Go `int` is `Int`; the package performs no arithmetic on indices that could overflow
  for slices that fit in memory.
* `row.go` declares `Row`, `DefaultEpsilon` and a second `Row.Equals`; `vector.go` declares
  `type Row = Vector`.  `matrix.go` is embedded over the alias of `vector.go`, which is the
  one its tests (`Column.Equals`, NaN-aware comparison) rely on.
-/

namespace matrix

/-! ## Scalars (`float64`) -/

/-- Values of `float64`: NaN, plus and minus infinity, and the finite values. -/
inductive Scalar where
  | nan : Scalar
  | pinf : Scalar
  | ninf : Scalar
  | fin (q : ℚ) : Scalar
  deriving DecidableEq

namespace Scalar

instance : Inhabited Scalar := ⟨fin 0⟩

/-- The literal `0.0`. -/
def zero : Scalar := fin 0

/-- The literal `1.0`. -/
def one : Scalar := fin 1

/-- Go `math.IsNaN`. -/
def isNaN : Scalar → Bool
  | nan => true
  | _ => false

/-- Unary minus on `float64`. -/
def neg : Scalar → Scalar
  | nan => nan
  | pinf => ninf
  | ninf => pinf
  | fin q => fin (-q)

/-- Go `math.Abs`. -/
def abs : Scalar → Scalar
  | nan => nan
  | pinf => pinf
  | ninf => pinf
  | fin q => fin |q|

/-- Binary `+` on `float64`. -/
def add : Scalar → Scalar → Scalar
  | nan, _ => nan
  | _, nan => nan
  | pinf, ninf => nan
  | ninf, pinf => nan
  | pinf, _ => pinf
  | ninf, _ => ninf
  | fin _, pinf => pinf
  | fin _, ninf => ninf
  | fin a, fin b => fin (a + b)

/-- Binary `-` on `float64`. -/
def sub : Scalar → Scalar → Scalar
  | nan, _ => nan
  | _, nan => nan
  | pinf, pinf => nan
  | ninf, ninf => nan
  | pinf, _ => pinf
  | ninf, _ => ninf
  | fin _, pinf => ninf
  | fin _, ninf => pinf
  | fin a, fin b => fin (a - b)

/-- The infinity with the sign of the rational `s`, or NaN when `s = 0`
(an infinity multiplied by a finite value). -/
def infTimes (s : ℚ) : Scalar :=
  if s = 0 then nan else if 0 < s then pinf else ninf

/-- Binary `*` on `float64`. -/
def mul : Scalar → Scalar → Scalar
  | nan, _ => nan
  | _, nan => nan
  | pinf, pinf => pinf
  | pinf, ninf => ninf
  | ninf, pinf => ninf
  | ninf, ninf => pinf
  | pinf, fin b => infTimes b
  | ninf, fin b => infTimes (-b)
  | fin a, pinf => infTimes a
  | fin a, ninf => infTimes (-a)
  | fin a, fin b => fin (a * b)

/-- Binary `/` on `float64`.  A finite non-zero value divided by zero is an infinity (the
zero is taken as positive), zero divided by zero is NaN. -/
def div : Scalar → Scalar → Scalar
  | nan, _ => nan
  | _, nan => nan
  | pinf, pinf => nan
  | pinf, ninf => nan
  | ninf, pinf => nan
  | ninf, ninf => nan
  | pinf, fin b => if b < 0 then ninf else pinf
  | ninf, fin b => if b < 0 then pinf else ninf
  | fin _, pinf => fin 0
  | fin _, ninf => fin 0
  | fin a, fin b => if b = 0 then infTimes a else fin (a / b)

/-- The comparison `a > b` on `float64`: false as soon as one side is NaN. -/
def gt : Scalar → Scalar → Bool
  | nan, _ => false
  | _, nan => false
  | pinf, pinf => false
  | pinf, _ => true
  | ninf, _ => false
  | fin _, pinf => false
  | fin _, ninf => true
  | fin a, fin b => decide (b < a)

/-- The comparison `a <= b` on `float64`: false as soon as one side is NaN. -/
def le : Scalar → Scalar → Bool
  | nan, _ => false
  | _, nan => false
  | ninf, _ => true
  | _, pinf => true
  | pinf, _ => false
  | fin _, ninf => false
  | fin a, fin b => decide (a ≤ b)

end Scalar

open Scalar

/-! ## `comparison.go` -/

/-- The constant `epsilon` of `Equals`, `const epsilon float64 = 1e-10`: the `float64`
nearest to `1e-10`, which is `7737125245533627 / 2^86`, a little above `1 / 10^10`. -/
def epsilon : Scalar := fin (7737125245533627 / 77371252455336267181195264)

/-- Go `EqualsWithEpsilon`. -/
def EqualsWithEpsilon (n1 n2 epsilon : Scalar) : Bool :=
  if isNaN n1 then
    if isNaN n2 then true else false
  else if isNaN n2 then false
  else
    let diff := abs (sub n1 n2)
    if gt diff epsilon then false else true

/-- Go `Equals`: comparison with the default epsilon. -/
def Equals (n1 n2 : Scalar) : Bool :=
  EqualsWithEpsilon n1 n2 epsilon

/-! ## Slices and errors -/

/-- The errors the package creates with `errors.New`, one constructor per message. -/
inductive Error where
  | jagged : Error
  | rowBounds : Error
  | columnBounds : Error
  | getBounds : Error
  | setBounds : Error
  | swapBounds : Error
  | addLength : Error
  | dotLength : Error
  deriving DecidableEq

/-- Go index expression `xs[i]`: `none` is the run-time abort on an index out of range. -/
def index {α : Type} (xs : List α) (i : Int) : Option α :=
  if i < 0 then none else xs[i.toNat]?

/-- Go assignment `xs[i] = v`: `none` is the run-time abort on an index out of range. -/
def assign {α : Type} (xs : List α) (i : Int) (v : α) : Option (List α) :=
  if 0 ≤ i ∧ i < (xs.length : Int) then some (xs.set i.toNat v) else none

/-- Go slice expression `xs[low:]`: the missing upper index is `len(xs)`, so the indices
are in range when `0 <= low <= len(xs)`; `none` is the run-time abort otherwise. -/
def sliceFrom {α : Type} (xs : List α) (low : Int) : Option (List α) :=
  if 0 ≤ low ∧ low ≤ (xs.length : Int) then some (xs.drop low.toNat) else none

/-! ## `vector.go` -/

/-- Go `type Vector []float64`. -/
abbrev Vector := List Scalar

/-- Go `type Row = Vector`. -/
abbrev Row := Vector

/-- Go `type Column = Vector`. -/
abbrev Column := Vector

namespace Vector

/-- Go `Vector.Copy`: a fresh slice with the same elements. -/
def Copy (v : Vector) : Vector := v

/-- Go `Vector.ScalarMult`: every element of a copy is multiplied by `c`. -/
def ScalarMult (v : Vector) (c : Scalar) : Vector :=
  (Copy v).map (fun x => mul x c)

/-- The loop of `Vector.Equals`: the first pair of elements that are not `Equals` makes
the result false.  The caller has checked that the lengths agree, so `other[i]` is in
range; the third case is not reached. -/
def EqualsLoop : Vector → Vector → Bool
  | [], _ => true
  | element :: rest, o :: os => if !Equals element o then false else EqualsLoop rest os
  | _ :: _, [] => false

/-- Go `Vector.Equals`. -/
def Equals (v other : Vector) : Bool :=
  if v.length ≠ other.length then false else EqualsLoop v other

/-- Go `Vector.Add`: `result[i] += element` for every element of `other`, on a copy of `v`. -/
def Add (v other : Vector) : Vector × Option Error :=
  if v.length ≠ other.length then ([], some Error.addLength)
  else (List.zipWith add (Copy v) other, none)

/-- Go `Vector.Dot`: `sum += element * other[i]` from `sum := 0.0`, left to right. -/
def Dot (v other : Vector) : Scalar × Option Error :=
  if v.length ≠ other.length then (zero, some Error.dotLength)
  else ((v.zip other).foldl (fun sum p => add sum (mul p.1 p.2)) zero, none)

end Vector

/-! ## `matrix.go` -/

/-- Go `type Matrix struct`. -/
structure Matrix where
  NRows : Int
  NCols : Int
  Rows : List Row
  deriving DecidableEq

namespace Matrix

/-- The zero value `Matrix{}`. -/
def empty : Matrix := ⟨0, 0, []⟩

/-- The loop of `New`: `some rowsCopy` when every row has length `nCols`, `none` at the
first row whose length differs (where `New` returns its error). -/
def NewLoop (nCols : Nat) : List Row → Option (List Row)
  | [] => some []
  | row :: rest =>
    if row.length ≠ nCols then none
    else (NewLoop nCols rest).map (fun rowsCopy => Vector.Copy row :: rowsCopy)

/-- Go `New`. -/
def New (rows : List Row) : Matrix × Option Error :=
  match rows with
  | [] => (⟨0, 0, rows⟩, none)
  | first :: _ =>
    match NewLoop first.length rows with
    | none => (empty, some Error.jagged)
    | some rowsCopy => (⟨(rows.length : Int), (first.length : Int), rowsCopy⟩, none)

/-- Go `NewZero`.  `make(Row, nCols)` aborts for a negative `nCols`, which happens only
when the loop body runs, that is when `nRows` is positive. -/
def NewZero (nRows nCols : Int) : Option Matrix :=
  if 0 < nRows ∧ nCols < 0 then none
  else some ⟨nRows, nCols, List.replicate nRows.toNat (List.replicate nCols.toNat zero)⟩

/-- Go `Matrix.Copy`: `New(m.Rows)` with the error dropped. -/
def Copy (m : Matrix) : Matrix := (New m.Rows).1

/-- Go `Matrix.Size`. -/
def Size (m : Matrix) : Int × Int := (m.NRows, m.NCols)

/-- The loop of `Matrix.Equals` over `m.Rows`; `other.Rows[i]` aborts when `other` has
fewer rows. -/
def EqualsLoop : List Row → List Row → Option Bool
  | [], _ => some true
  | row :: rest, o :: os => if !Vector.Equals row o then some false else EqualsLoop rest os
  | _ :: _, [] => none

/-- Go `Matrix.Equals`. -/
def Equals (m other : Matrix) : Option Bool :=
  if m.NRows ≠ other.NRows ∨ m.NCols ≠ other.NCols then some false
  else EqualsLoop m.Rows other.Rows

/-- Go `Matrix.GetRow`. -/
def GetRow (m : Matrix) (row : Int) : Option (Row × Option Error) :=
  if row ≥ m.NRows then some ([], some Error.rowBounds)
  else (index m.Rows row).map (fun r => (r, none))

/-- The loop of `GetColumn`: `column = append(column, row[col])` for every row. -/
def GetColumnLoop (col : Int) : List Row → Option Column
  | [] => some []
  | row :: rest =>
    match index row col with
    | none => none
    | some x => (GetColumnLoop col rest).map (fun column => x :: column)

/-- Go `Matrix.GetColumn`. -/
def GetColumn (m : Matrix) (col : Int) : Option (Column × Option Error) :=
  if col ≥ m.NCols then some ([], some Error.columnBounds)
  else (GetColumnLoop col m.Rows).map (fun column => (column, none))

/-- Go `Matrix.Get`. -/
def Get (m : Matrix) (row col : Int) : Option (Scalar × Option Error) :=
  if row ≥ m.NRows ∨ col ≥ m.NCols then some (zero, some Error.getBounds)
  else ((index m.Rows row).bind (fun r => index r col)).map (fun x => (x, none))

/-- Go `Matrix.Set`: the receiver after the call, and the returned error. -/
def Set (m : Matrix) (value : Scalar) (row col : Int) : Option (Matrix × Option Error) :=
  if row ≥ m.NRows ∨ col ≥ m.NCols then some (m, some Error.setBounds)
  else
    match index m.Rows row with
    | none => none
    | some r =>
      match assign r col value with
      | none => none
      | some r1 => (assign m.Rows row r1).map (fun rows => ({ m with Rows := rows }, none))

/-- The loop of `GetTranspose`: the columns `i, i+1, ...` of `m`, `count` of them. -/
def GetTransposeLoop (m : Matrix) : Nat → Int → Option (List Column)
  | 0, _ => some []
  | count + 1, i =>
    match GetColumn m i with
    | none => none
    | some (column, _) => (GetTransposeLoop m count (i + 1)).map (fun columns => column :: columns)

/-- Go `Matrix.GetTranspose`: the columns `0 .. NCols-1` passed to `New`, error dropped. -/
def GetTranspose (m : Matrix) : Option Matrix :=
  (GetTransposeLoop m m.NCols.toNat 0).map (fun columns => (New columns).1)

/-- Go `Matrix.SwapRows`: the receiver after the call, and the returned error. -/
def SwapRows (m : Matrix) (r1 r2 : Int) : Option (Matrix × Option Error) :=
  if r1 ≥ m.NRows ∨ r2 ≥ m.NRows then some (m, some Error.swapBounds)
  else if r1 = r2 then some (m, none)
  else
    match index m.Rows r1, index m.Rows r2 with
    | some row1, some row2 =>
      ((assign m.Rows r1 row2).bind (fun rows => assign rows r2 row1)).map
        (fun rows => ({ m with Rows := rows }, none))
    | _, _ => none

/-- The pivot search of `GaussianReduce`, over `col[r:]` from position `i` on: `r + i` at
the first element that is not `Equals` to `0.0`, and `-1` (the initial `pivotRow`) when
there is none. -/
def FindPivotLoop (r : Int) : Int → List Scalar → Int
  | _, [] => -1
  | i, element :: rest =>
    if !matrix.Equals element zero then r + i else FindPivotLoop r (i + 1) rest

/-- The elimination loop of `GaussianReduce`, `for r2 := range reducedMatrix.Rows[r+1:]`,
from `r2` on with `count` iterations left, on the rows of `reducedMatrix`. -/
def EliminateLoop (r currentColumn : Int) : Nat → Int → List Row → Option (List Row)
  | 0, _, rows => some rows
  | count + 1, r2, rows =>
    match index rows (r + r2 + 1), index rows r with
    | some lower, some pivot =>
      match index lower currentColumn, index pivot currentColumn with
      | some a, some p =>
        let negationFactor := div (neg a) p
        let negationRow := Vector.ScalarMult pivot negationFactor
        match assign rows (r + r2 + 1) (Vector.Add lower negationRow).1 with
        | none => none
        | some rows1 => EliminateLoop r currentColumn count (r2 + 1) rows1
      | _, _ => none
    | _, _ => none

/-- One iteration of the outer loop of `GaussianReduce` for the row index `r`, on the
state `(reducedMatrix, currentColumn)`. -/
def ReduceStep (state : Matrix × Int) (r : Int) : Option (Matrix × Int) :=
  let reducedMatrix := state.1
  let currentColumn := state.2
  match GetColumn reducedMatrix currentColumn with
  | none => none
  | some (col, _) =>
    match sliceFrom col r with
    | none => none
    | some tail =>
      let pivotRow := FindPivotLoop r 0 tail
      if pivotRow = -1 then some (reducedMatrix, currentColumn + 1)
      else
        match SwapRows reducedMatrix r pivotRow with
        | none => none
        | some (swapped, _) =>
          match (index swapped.Rows r).bind (fun row => index row currentColumn) with
          | none => none
          | some pivot =>
            match (index swapped.Rows r).bind
                (fun row => assign swapped.Rows r (Vector.ScalarMult row (div one pivot))) with
            | none => none
            | some rows =>
              match sliceFrom rows (r + 1) with
              | none => none
              | some below =>
                (EliminateLoop r currentColumn below.length 0 rows).map
                  (fun rows1 => ({ swapped with Rows := rows1 }, currentColumn + 1))

/-- The outer loop of `GaussianReduce`, `for r := range reducedMatrix.Rows`, from `r` on
with `count` iterations left. -/
def ReduceLoop : Nat → Int → Matrix × Int → Option (Matrix × Int)
  | 0, _, state => some state
  | count + 1, r, state =>
    match ReduceStep state r with
    | none => none
    | some state1 => ReduceLoop count (r + 1) state1

/-- Go `Matrix.GaussianReduce` (the final `fmt.Println` left out). -/
def GaussianReduce (m : Matrix) : Option Matrix :=
  let reducedMatrix := Copy m
  if m.NRows = 0 ∨ m.NCols = 0 then some reducedMatrix
  else (ReduceLoop reducedMatrix.Rows.length 0 (reducedMatrix, 0)).map (fun state => state.1)

/-- A matrix is well formed when `NRows` is the number of rows and every row has `NCols`
elements. -/
def WellFormed (m : Matrix) : Prop :=
  m.NRows = (m.Rows.length : Int) ∧ ∀ row ∈ m.Rows, (row.length : Int) = m.NCols

instance (m : Matrix) : Decidable (WellFormed m) := by
  unfold WellFormed; infer_instance

end Matrix

/-! ## Row-echelon form -/

/-- The position of the first entry of a row that is not `Equals` to `0.0`. -/
def pivotIndex (row : Row) : Option Nat :=
  row.findIdx? (fun x => !Equals x zero)

/-- Every non-zero row has `1.0` as its first entry not `Equals` to `0.0`. -/
def pivotsAreOne (rows : List Row) : Bool :=
  rows.all (fun row =>
    match pivotIndex row with
    | none => true
    | some j => decide (row[j]? = some one))

/-- The pivots move strictly to the right as the row index increases: for rows `i < k`
that both have a pivot, the pivot of row `i` is left of the pivot of row `k`. -/
def pivotsMoveRight (rows : List Row) : Bool :=
  (List.range rows.length).all (fun i => (List.range rows.length).all (fun k =>
    match rows[i]?, rows[k]? with
    | some ri, some rk =>
      match pivotIndex ri, pivotIndex rk with
      | some ji, some jk => decide (i < k → ji < jk)
      | _, _ => true
    | _, _ => true))

/-- Every entry below a pivot, in the column of the pivot, is `Equals` to `0.0`. -/
def zeroBelowPivots (rows : List Row) : Bool :=
  (List.range rows.length).all (fun i => (List.range rows.length).all (fun k =>
    match rows[i]?, rows[k]? with
    | some ri, some rk =>
      match pivotIndex ri with
      | some j => decide (i < k → (rk[j]?).all (fun x => Equals x zero) = true)
      | none => true
    | _, _ => true))

/-- Row-echelon form, as the glossary of the specification defines it. -/
def isRowEchelon (m : Matrix) : Bool :=
  pivotsAreOne m.Rows && pivotsMoveRight m.Rows && zeroBelowPivots m.Rows

/-! ## Notions used in the statements -/

/-- The entry in row `i` and column `j` of a matrix, when both indices are in range. -/
def Matrix.entry (m : Matrix) (i j : Nat) : Option Scalar :=
  (m.Rows[i]?).bind (fun row => row[j]?)

/-- A scalar is finite when it is neither NaN nor an infinity. -/
def Scalar.isFinite : Scalar → Bool
  | fin _ => true
  | _ => false

/-- Every entry of the matrix is finite. -/
def Matrix.AllFinite (m : Matrix) : Prop :=
  ∀ row ∈ m.Rows, ∀ x ∈ row, Scalar.isFinite x = true

/-- The body of the elimination loop of `GaussianReduce` for one lower row: the row
`lower.Add(pivot.ScalarMult(-lower[cc] / pivot[cc]))` that is stored in its place. -/
def EliminateRow (pivot : Row) (cc : Nat) (lower : Row) : Row :=
  (Vector.Add lower
    (Vector.ScalarMult pivot (div (neg (lower.getD cc zero)) (pivot.getD cc zero)))).1

/-- The rows after an iteration of the outer loop of `GaussianReduce` for the row index `r`
and the column `cc` that found its pivot in row `p`: rows `r` and `p` are exchanged, row `r`
is multiplied by `1 / Rows[r][cc]`, and every row below `r` goes through `EliminateRow`. -/
def PivotStep (rows : List Row) (r p cc : Nat) : List Row :=
  let swapped := (rows.set r (rows.getD p [])).set p (rows.getD r [])
  let row := swapped.getD r []
  let pivotRow := Vector.ScalarMult row (div one (row.getD cc zero))
  let rows2 := swapped.set r pivotRow
  rows2.take (r + 1) ++ (rows2.drop (r + 1)).map (EliminateRow pivotRow cc)

/-- Column 0 is reduced: there is a first row, it has `1.0` in column 0, and every row
after it has `0.0` in column 0. -/
def FirstColumnDone (rows : List Row) : Prop :=
  ∃ first rest, rows = first :: rest ∧ first.getD 0 zero = one ∧
    ∀ row ∈ rest, row.getD 0 zero = zero

instance (m : Matrix) : Decidable (Matrix.AllFinite m) := by
  unfold Matrix.AllFinite; infer_instance

/-- The sum `f 0 + f 1 + ... + f (n - 1)` of scalars, added in this order from `0.0`. -/
def sumOver (f : Nat → Scalar) : Nat → Scalar
  | 0 => zero
  | n + 1 => add (sumOver f n) (f n)

end matrix

/-! # Theorems -/

namespace matrix

open Scalar Matrix

/-! ## The scalar comparator -/

/-- C4: for every epsilon, `EqualsWithEpsilon` is true when both arguments are NaN and false
when exactly one of them is NaN, and the same holds for `Equals`. -/
theorem C4_nan_comparison (a b eps : Scalar) :
    (isNaN a = true ∧ isNaN b = true →
      EqualsWithEpsilon a b eps = true ∧ Equals a b = true) ∧
    (isNaN a ≠ isNaN b →
      EqualsWithEpsilon a b eps = false ∧ Equals a b = false) := by
  cases a <;> cases b <;> simp [Equals, EqualsWithEpsilon, isNaN]

/-- Witness of C4: NaN against NaN, and NaN against `0.0`, with epsilon `0.0`. -/
theorem C4_nan_comparison_witness :
    (EqualsWithEpsilon nan nan zero = true ∧ Equals nan nan = true) ∧
    (EqualsWithEpsilon nan zero zero = false ∧ Equals nan zero = false) :=
  ⟨(C4_nan_comparison nan nan zero).1 ⟨rfl, rfl⟩,
   (C4_nan_comparison nan zero zero).2 (by decide)⟩

/-- Counterexample to C5 as stated: plus infinity against itself is reported equal although
`|a - b|` is NaN, which is not `<=` the epsilon. -/
theorem C5_counterexample :
    isNaN pinf = false ∧ EqualsWithEpsilon pinf pinf epsilon = true ∧
      le (abs (sub pinf pinf)) epsilon = false := by
  decide

/-- C5, amended: for `a`, `b` that are not NaN, `EqualsWithEpsilon a b eps` is true exactly
when `|a - b| <= eps`, or `a` and `b` are the same infinity (so `|a - b|` is NaN), or `eps`
is NaN. -/
theorem C5_equalsWithEpsilon_iff (a b eps : Scalar)
    (ha : isNaN a = false) (hb : isNaN b = false) :
    EqualsWithEpsilon a b eps = true ↔
      (le (abs (sub a b)) eps = true ∨ (a = pinf ∧ b = pinf) ∨ (a = ninf ∧ b = ninf) ∨
        eps = nan) := by
  cases a <;> cases b <;> cases eps <;>
    simp_all [EqualsWithEpsilon, isNaN, Scalar.sub, Scalar.abs, Scalar.gt, Scalar.le]

/-- Witness of C5: `1` and `2` with epsilon `1`. -/
theorem C5_equalsWithEpsilon_iff_witness :
    EqualsWithEpsilon (fin 1) (fin 2) (fin 1) = true ↔
      (le (abs (sub (fin 1) (fin 2))) (fin 1) = true ∨
        ((fin 1 : Scalar) = pinf ∧ (fin 2 : Scalar) = pinf) ∨
        ((fin 1 : Scalar) = ninf ∧ (fin 2 : Scalar) = ninf) ∨ (fin 1 : Scalar) = nan) :=
  C5_equalsWithEpsilon_iff (fin 1) (fin 2) (fin 1) rfl rfl

/-- C6: an infinity is `Equals` to itself and not to the opposite infinity, with the default
epsilon and with every finite epsilon. -/
theorem C6_infinities :
    Equals pinf pinf = true ∧ Equals ninf ninf = true ∧
    Equals pinf ninf = false ∧ Equals ninf pinf = false ∧
    ∀ q : ℚ, EqualsWithEpsilon pinf pinf (fin q) = true ∧
      EqualsWithEpsilon ninf ninf (fin q) = true ∧
      EqualsWithEpsilon pinf ninf (fin q) = false ∧
      EqualsWithEpsilon ninf pinf (fin q) = false := by
  refine ⟨by decide, by decide, by decide, by decide, fun q => ?_⟩
  simp [EqualsWithEpsilon, isNaN, Scalar.sub, Scalar.abs, Scalar.gt]

/-! ## Construction -/

theorem NewLoop_eq_some_iff (nCols : Nat) (rows rowsCopy : List Row) :
    NewLoop nCols rows = some rowsCopy ↔
      (∀ row ∈ rows, row.length = nCols) ∧ rowsCopy = rows := by
  induction rows generalizing rowsCopy with
  | nil => simp [NewLoop, eq_comm]
  | cons row rest ih =>
    by_cases h : row.length = nCols
    · cases hrest : NewLoop nCols rest with
      | none =>
        have hno : ¬ ∀ r ∈ rest, r.length = nCols := fun hall =>
          by simpa [hrest] using (ih rest).2 ⟨hall, rfl⟩
        simp [NewLoop, h, hrest, hno]
      | some rc =>
        obtain ⟨hall, hrc⟩ := (ih rc).1 hrest
        subst hrc
        simp only [NewLoop, h, hrest, Vector.Copy, ne_eq, not_true_eq_false, if_false,
          Option.map_some', Option.some.injEq, List.mem_cons, forall_eq_or_imp, true_and]
        constructor
        · intro heq
          exact ⟨hall, heq.symm⟩
        · intro heq
          exact heq.2.symm
    · simp [NewLoop, h]

theorem NewLoop_eq_none_iff (nCols : Nat) (rows : List Row) :
    NewLoop nCols rows = none ↔ ∃ row ∈ rows, row.length ≠ nCols := by
  constructor
  · intro h
    by_contra hno
    push_neg at hno
    have := (NewLoop_eq_some_iff nCols rows rows).2 ⟨hno, rfl⟩
    simp [h] at this
  · rintro ⟨row, hmem, hlen⟩
    cases h : NewLoop nCols rows with
    | none => rfl
    | some rc => exact absurd (((NewLoop_eq_some_iff nCols rows rc).1 h).1 row hmem) hlen

/-- C8: `New` returns an error exactly when `rows` is not empty and some row has a length
other than that of the first row; otherwise the matrix has `len(rows)` rows, the common row
length as `NCols` (0 for no rows), and the rows of the input. -/
theorem C8_new (rows : List Row) :
    ((New rows).2 ≠ none ↔
      rows ≠ [] ∧ ∃ row ∈ rows, row.length ≠ (rows.headD []).length) ∧
    ((New rows).2 = none →
      (New rows).1 = ⟨(rows.length : Int), ((rows.headD []).length : Int), rows⟩) := by
  cases rows with
  | nil => simp [New]
  | cons first rest =>
    cases h : NewLoop first.length (first :: rest) with
    | none =>
      have hex := (NewLoop_eq_none_iff _ _).1 h
      simpa [New, h] using hex
    | some rc =>
      obtain ⟨hall, hrc⟩ := (NewLoop_eq_some_iff _ _ _).1 h
      subst hrc
      have hno : ¬ ∃ row ∈ first :: rest, row.length ≠ first.length := by
        push_neg
        exact hall
      simpa [New, h] using hno

/-- Witness of C8: two rows of length two. -/
theorem C8_new_witness :
    (New [[fin 1, fin 2], [fin 3, fin 4]]).1 =
      ⟨2, 2, [[fin 1, fin 2], [fin 3, fin 4]]⟩ :=
  (C8_new [[fin 1, fin 2], [fin 3, fin 4]]).2 rfl

/-- On a well-formed matrix with at least one row, `Copy` returns the matrix itself. -/
theorem Copy_eq_self (m : Matrix) (hwf : WellFormed m) (hrows : m.Rows ≠ []) :
    Copy m = m := by
  obtain ⟨nRows, nCols, rows⟩ := m
  obtain ⟨hn, hall⟩ := hwf
  simp only at hn hall hrows
  cases rows with
  | nil => exact absurd rfl hrows
  | cons first rest =>
    have hfirst : (first.length : Int) = nCols := hall first (List.mem_cons_self _ _)
    have hloop : NewLoop first.length (first :: rest) = some (first :: rest) := by
      apply (NewLoop_eq_some_iff _ _ _).2
      refine ⟨fun row hrow => ?_, rfl⟩
      have := hall row hrow
      omega
    simp [Copy, New, hloop, hn, hfirst]

/-- C9 at its failing input: the well-formed matrix `NewZero(0, n)` with `n > 0` has size
`(0, n)`, its `Copy` has size `(0, 0)`, and `Equals` reports the two as different. -/
theorem C9_copy_loses_columns (n : Int) (hn : 0 < n) :
    NewZero 0 n = some ⟨0, n, []⟩ ∧ WellFormed ⟨0, n, []⟩ ∧
    Size ⟨0, n, []⟩ = (0, n) ∧ Size (Copy ⟨0, n, []⟩) = (0, 0) ∧
    Size (Copy ⟨0, n, []⟩) ≠ Size ⟨0, n, []⟩ ∧
    Matrix.Equals ⟨0, n, []⟩ (Copy ⟨0, n, []⟩) = some false := by
  have hne : n ≠ 0 := by omega
  have hne2 : (0 : Int) ≠ n := by omega
  refine ⟨by simp [NewZero], by simp [WellFormed], rfl, rfl, ?_, ?_⟩
  · intro h
    have hsnd := congrArg Prod.snd h
    simp only [Size, Copy, New] at hsnd
    omega
  · simp [Matrix.Equals, Copy, New, hne]

/-- Witness of the C9 evaluation: `NewZero(0, 3)`. -/
theorem C9_copy_loses_columns_witness :
    Size (Copy ⟨0, 3, []⟩) = (0, 0) ∧
    Matrix.Equals ⟨0, 3, []⟩ (Copy ⟨0, 3, []⟩) = some false :=
  ⟨(C9_copy_loses_columns 3 (by decide)).2.2.2.1, (C9_copy_loses_columns 3 (by decide)).2.2.2.2.2⟩

/-- C10 at its failing input: on the well-formed matrix `NewZero(0, n)` with `n > 0`,
`GaussianReduce` returns the `0 x 0` matrix, whose size differs from `(0, n)` and which
`Equals` reports as different from its argument. -/
theorem C10_reduce_loses_columns (n : Int) (hn : 0 < n) :
    WellFormed ⟨0, n, []⟩ ∧
    GaussianReduce ⟨0, n, []⟩ = some ⟨0, 0, []⟩ ∧
    Size ⟨0, 0, []⟩ ≠ Size ⟨0, n, []⟩ ∧
    Matrix.Equals ⟨0, 0, []⟩ ⟨0, n, []⟩ = some false := by
  have hne : n ≠ 0 := by omega
  have hne2 : (0 : Int) ≠ n := by omega
  refine ⟨by simp [WellFormed], by simp [GaussianReduce, Copy, New], ?_, ?_⟩
  · intro h
    have hsnd := congrArg Prod.snd h
    simp only [Size] at hsnd
    omega
  · simp [Matrix.Equals, hne2]

/-- Witness of the C10 evaluation: `NewZero(0, 3)`. -/
theorem C10_reduce_loses_columns_witness :
    GaussianReduce ⟨0, 3, []⟩ = some ⟨0, 0, []⟩ ∧
    Matrix.Equals ⟨0, 0, []⟩ ⟨0, 3, []⟩ = some false :=
  ⟨(C10_reduce_loses_columns 3 (by decide)).2.1, (C10_reduce_loses_columns 3 (by decide)).2.2.2⟩

/-- C7 at its failing inputs: for the well-formed matrices `NewZero(3, 0)` and
`NewZero(0, 3)` (no entries at all), transposing twice gives the `0 x 0` matrix, which
`Equals` reports as different from the original. -/
theorem C7_transpose_twice_loses_shape :
    NewZero 3 0 = some ⟨3, 0, [[], [], []]⟩ ∧ WellFormed ⟨3, 0, [[], [], []]⟩ ∧
    GetTranspose ⟨3, 0, [[], [], []]⟩ = some ⟨0, 0, []⟩ ∧
    (GetTranspose ⟨3, 0, [[], [], []]⟩).bind GetTranspose = some ⟨0, 0, []⟩ ∧
    Matrix.Equals ⟨0, 0, []⟩ ⟨3, 0, [[], [], []]⟩ = some false ∧
    NewZero 0 3 = some ⟨0, 3, []⟩ ∧ WellFormed ⟨0, 3, []⟩ ∧
    GetTranspose ⟨0, 3, []⟩ = some ⟨3, 0, [[], [], []]⟩ ∧
    (GetTranspose ⟨0, 3, []⟩).bind GetTranspose = some ⟨0, 0, []⟩ ∧
    Matrix.Equals ⟨0, 0, []⟩ ⟨0, 3, []⟩ = some false := by
  decide

/-! ## The reducer -/

theorem SwapRows_NCols (m m1 : Matrix) (r1 r2 : Int) (e : Option Error)
    (h : SwapRows m r1 r2 = some (m1, e)) : m1.NCols = m.NCols := by
  unfold SwapRows at h
  split_ifs at h with h1 h2
  · simp only [Option.some.injEq, Prod.mk.injEq] at h
    rw [← h.1]
  · simp only [Option.some.injEq, Prod.mk.injEq] at h
    rw [← h.1]
  · split at h
    · simp only [Option.map_eq_some', Prod.mk.injEq] at h
      obtain ⟨rows, -, hm, -⟩ := h
      rw [← hm]
    · exact absurd h (by simp)

/-- An iteration of the outer loop that does not abort keeps `NCols` and advances
`currentColumn` by one. -/
theorem ReduceStep_some (state state1 : Matrix × Int) (r : Int)
    (h : ReduceStep state r = some state1) :
    state1.1.NCols = state.1.NCols ∧ state1.2 = state.2 + 1 := by
  unfold ReduceStep at h
  simp only at h
  split at h
  · exact absurd h (by simp)
  · split at h
    · exact absurd h (by simp)
    · split_ifs at h with hp
      · simp only [Option.some.injEq] at h
        rw [← h]
        exact ⟨rfl, rfl⟩
      · split at h
        · exact absurd h (by simp)
        · rename_i swapped e hswap
          split at h
          · exact absurd h (by simp)
          · split at h
            · exact absurd h (by simp)
            · split at h
              · exact absurd h (by simp)
              · simp only [Option.map_eq_some'] at h
                obtain ⟨rows1, -, hst⟩ := h
                rw [← hst]
                exact ⟨SwapRows_NCols _ swapped _ _ e hswap, rfl⟩

/-- An iteration for a row `r > 0` aborts when `currentColumn` is not a column of the
matrix: `GetColumn` returns the empty column with its error, and `col[r:]` is out of
range. -/
theorem ReduceStep_none_of_ge (rm : Matrix) (cc r : Int) (hcc : cc ≥ rm.NCols)
    (hr : 0 < r) : ReduceStep (rm, cc) r = none := by
  have hslice : sliceFrom ([] : List Scalar) r = none := by
    simp only [sliceFrom, List.length_nil, Nat.cast_zero]
    rw [if_neg]
    omega
  simp [ReduceStep, GetColumn, hcc, hslice]

theorem ReduceLoop_none (count : Nat) :
    ∀ (r : Int) (rm : Matrix), 0 < rm.NCols → 0 ≤ r → r ≤ rm.NCols →
      rm.NCols < r + (count : Int) → ReduceLoop count r (rm, r) = none := by
  induction count with
  | zero =>
    intro r rm _ _ h1 h2
    simp only [Nat.cast_zero, add_zero] at h2
    omega
  | succ count ih =>
    intro r rm hpos hr0 h1 h2
    unfold ReduceLoop
    by_cases hr : r = rm.NCols
    · rw [ReduceStep_none_of_ge rm r r (by omega) (by omega)]
    · cases hstep : ReduceStep (rm, r) r with
      | none => rfl
      | some state1 =>
        obtain ⟨hn, hc⟩ := ReduceStep_some _ _ _ hstep
        obtain ⟨rm1, cc1⟩ := state1
        simp only at hn hc
        subst hc
        simp only
        apply ih (r + 1) rm1
        · omega
        · omega
        · omega
        · push_cast at h2
          omega

/-- C2 at its failing inputs: on every well-formed matrix with more rows than columns and
at least one column, `GaussianReduce` aborts (the slice expression `col[r:]` is out of
range once `currentColumn` has reached `NCols`); it returns no matrix. -/
theorem C2_gaussianReduce_aborts_on_tall (m : Matrix) (hwf : WellFormed m)
    (hcols : 0 < m.NCols) (htall : m.NCols < m.NRows) : GaussianReduce m = none := by
  have hlen : m.NRows = (m.Rows.length : Int) := hwf.1
  have hrows : m.Rows ≠ [] := by
    intro h
    rw [h] at hlen
    simp only [List.length_nil, Nat.cast_zero] at hlen
    omega
  have h0 : ¬ (m.NRows = 0 ∨ m.NCols = 0) := by omega
  have hloop : ReduceLoop m.Rows.length 0 (m, 0) = none :=
    ReduceLoop_none m.Rows.length 0 m hcols le_rfl (by omega) (by omega)
  simp [GaussianReduce, Copy_eq_self m hwf hrows, h0, hloop]

/-- Witness of C2: the 2 x 1 matrix `[[1], [2]]`. -/
theorem C2_gaussianReduce_aborts_on_tall_witness :
    GaussianReduce ⟨2, 1, [[fin 1], [fin 2]]⟩ = none :=
  C2_gaussianReduce_aborts_on_tall ⟨2, 1, [[fin 1], [fin 2]]⟩ (by decide) (by decide)
    (by decide)

/-- C1 at its failing input: `GaussianReduce` maps `[[0, 1], [0, 2]]` to `[[0, 1], [0, 1]]`,
which is not in row-echelon form: the pivots of both rows are in column 1, and the entry
below the first pivot is 1. -/
theorem C1_gaussianReduce_not_rowEchelon :
    WellFormed ⟨2, 2, [[fin 0, fin 1], [fin 0, fin 2]]⟩ ∧
    GaussianReduce ⟨2, 2, [[fin 0, fin 1], [fin 0, fin 2]]⟩ =
      some ⟨2, 2, [[fin 0, fin 1], [fin 0, fin 1]]⟩ ∧
    isRowEchelon ⟨2, 2, [[fin 0, fin 1], [fin 0, fin 1]]⟩ = false ∧
    pivotsMoveRight [[fin 0, fin 1], [fin 0, fin 1]] = false ∧
    zeroBelowPivots [[fin 0, fin 1], [fin 0, fin 1]] = false := by
  decide!

theorem FindPivotLoop_none (r : Int) (tail : List Scalar)
    (h : ∀ x ∈ tail, Equals x zero = true) : ∀ i : Int, FindPivotLoop r i tail = -1 := by
  induction tail with
  | nil => intro i; rfl
  | cons x rest ih =>
    intro i
    have hx : Equals x zero = true := h x (List.mem_cons_self _ _)
    simp only [FindPivotLoop, hx, Bool.not_true, Bool.false_eq_true, if_false]
    exact ih (fun y hy => h y (List.mem_cons_of_mem _ hy)) (i + 1)

/-- When the current column has no entry not `Equals` to `0.0` from row `r` down, the
iteration for `r` leaves the matrix as it is and only advances `currentColumn`; the outer
loop then goes on with row `r + 1`. -/
theorem ReduceLoop_skip (count : Nat) (r cc : Int) (rm : Matrix) (col tail : List Scalar)
    (e : Option Error) (hcol : GetColumn rm cc = some (col, e))
    (htail : sliceFrom col r = some tail) (hzero : ∀ x ∈ tail, Equals x zero = true) :
    ReduceStep (rm, cc) r = some (rm, cc + 1) ∧
    ReduceLoop (count + 1) r (rm, cc) = ReduceLoop count (r + 1) (rm, cc + 1) := by
  have hstep : ReduceStep (rm, cc) r = some (rm, cc + 1) := by
    simp [ReduceStep, hcol, htail, FindPivotLoop_none r tail hzero 0]
  exact ⟨hstep, by simp [ReduceLoop, hstep]⟩

/-- C3 at its failing input `[[0, 1], [0, 2]]`: column 0 has no pivot for row 0, the
iteration for row 0 ends with `currentColumn = 1` and the matrix unchanged, the next
iteration is for row 1 and makes row 1 the pivot row of column 1; the result is
`[[0, 1], [0, 1]]`, which `Equals` reports as different from `[[0, 1], [0, 0]]`. -/
theorem C3_skipped_column_advances_row :
    ReduceStep (⟨2, 2, [[fin 0, fin 1], [fin 0, fin 2]]⟩, 0) 0 =
      some (⟨2, 2, [[fin 0, fin 1], [fin 0, fin 2]]⟩, 1) ∧
    ReduceStep (⟨2, 2, [[fin 0, fin 1], [fin 0, fin 2]]⟩, 1) 1 =
      some (⟨2, 2, [[fin 0, fin 1], [fin 0, fin 1]]⟩, 2) ∧
    GaussianReduce ⟨2, 2, [[fin 0, fin 1], [fin 0, fin 2]]⟩ =
      some ⟨2, 2, [[fin 0, fin 1], [fin 0, fin 1]]⟩ ∧
    Matrix.Equals ⟨2, 2, [[fin 0, fin 1], [fin 0, fin 1]]⟩
      ⟨2, 2, [[fin 0, fin 1], [fin 0, fin 0]]⟩ = some false := by
  decide!

/-! ## Bounds-checked access -/

theorem index_natCast {α : Type} (xs : List α) (n : Nat) : index xs (n : Int) = xs[n]? := by
  simp [index]

theorem index_of_nonneg {α : Type} (xs : List α) (i : Int) (hi : 0 ≤ i) :
    index xs i = xs[i.toNat]? := by
  simp [index, not_lt.mpr hi]

theorem assign_natCast {α : Type} (xs : List α) (n : Nat) (v : α) (h : n < xs.length) :
    assign xs (n : Int) v = some (xs.set n v) := by
  simp [assign, h]

/-- On rows that all have an element at position `j`, the loop of `GetColumn` collects
these elements. -/
theorem GetColumnLoop_eq (j : Nat) (rows : List Row) (h : ∀ row ∈ rows, j < row.length) :
    GetColumnLoop (j : Int) rows = some (rows.map (fun row => row.getD j zero)) := by
  induction rows with
  | nil => rfl
  | cons row rest ih =>
    have hj : j < row.length := h row (List.mem_cons_self _ _)
    have hrest := ih (fun r hr => h r (List.mem_cons_of_mem _ hr))
    simp [GetColumnLoop, index_natCast, List.getElem?_eq_getElem hj, hrest,
      List.getD_eq_getElem _ _ hj]

/-- C11: on a well-formed matrix and for non-negative indices, `GetRow` returns an error
exactly when `i >= NRows`, `GetColumn` exactly when `j >= NCols`, `Get` and `Set` exactly
when `i >= NRows` or `j >= NCols`; none of them aborts, and for valid indices `GetRow`
returns row `i`, `GetColumn` the vector of length `NRows` of the entries `(k, j)`, `Get`
the entry `(i, j)`, and `Set` stores the value at `(i, j)`. -/
theorem C11_bounds_checked_access (m : Matrix) (hwf : WellFormed m) (i j : Int)
    (hi : 0 ≤ i) (hj : 0 ≤ j) (value : Scalar) :
    (∃ row e, GetRow m i = some (row, e) ∧ (e ≠ none ↔ i ≥ m.NRows) ∧
      (i < m.NRows → m.Rows[i.toNat]? = some row)) ∧
    (∃ column e, GetColumn m j = some (column, e) ∧ (e ≠ none ↔ j ≥ m.NCols) ∧
      (j < m.NCols → (column.length : Int) = m.NRows ∧
        ∀ k : Nat, (k : Int) < m.NRows → column[k]? = entry m k j.toNat ∧
          (column[k]?).isSome = true)) ∧
    (∃ x e, Get m i j = some (x, e) ∧ (e ≠ none ↔ (i ≥ m.NRows ∨ j ≥ m.NCols)) ∧
      (i < m.NRows → j < m.NCols → entry m i.toNat j.toNat = some x)) ∧
    (∃ m1 e, Set m value i j = some (m1, e) ∧ (e ≠ none ↔ (i ≥ m.NRows ∨ j ≥ m.NCols)) ∧
      (i < m.NRows → j < m.NCols → entry m1 i.toNat j.toNat = some value)) := by
  obtain ⟨nRows, nCols, rows⟩ := m
  obtain ⟨hn, hall⟩ := hwf
  simp only at hn hall
  subst hn
  obtain ⟨a, rfl⟩ := Int.eq_ofNat_of_zero_le hi
  obtain ⟨b, rfl⟩ := Int.eq_ofNat_of_zero_le hj
  simp only [Int.toNat_ofNat]
  refine ⟨?_, ?_, ?_, ?_⟩
  · -- GetRow
    by_cases h : (a : Int) ≥ (rows.length : Int)
    · refine ⟨[], some Error.rowBounds, ?_, ⟨fun _ => h, fun _ => by simp⟩, fun h1 => ?_⟩
      · unfold GetRow
        rw [if_pos h]
      · exact absurd h (by omega)
    · have ha : a < rows.length := by omega
      refine ⟨rows[a], none, ?_, ⟨fun hne => absurd rfl hne, fun hc => absurd hc h⟩,
        fun _ => List.getElem?_eq_getElem ha⟩
      unfold GetRow
      rw [if_neg h]
      simp [index_natCast, List.getElem?_eq_getElem ha]
  · -- GetColumn
    by_cases h : (b : Int) ≥ nCols
    · refine ⟨[], some Error.columnBounds, ?_, ⟨fun _ => h, fun _ => by simp⟩,
        fun h1 => ?_⟩
      · unfold GetColumn
        rw [if_pos h]
      · exact absurd h (by omega)
    · have hb : ∀ row ∈ rows, b < row.length := fun row hrow => by
        have := hall row hrow
        omega
      refine ⟨rows.map (fun row => row.getD b zero), none, ?_,
        ⟨fun hne => absurd rfl hne, fun hc => absurd hc h⟩, fun _ => ?_⟩
      · unfold GetColumn
        rw [if_neg h]
        simp [GetColumnLoop_eq b rows hb]
      · refine ⟨by simp, fun k hk => ?_⟩
        have hk1 : k < rows.length := by omega
        have hbk : b < (rows[k]).length := hb _ (List.getElem_mem _)
        simp [entry, List.getElem?_eq_getElem hk1, List.getD_eq_getElem _ _ hbk,
          List.getElem?_eq_getElem hbk]
  · -- Get
    by_cases h : (a : Int) ≥ (rows.length : Int) ∨ (b : Int) ≥ nCols
    · refine ⟨zero, some Error.getBounds, ?_, ⟨fun _ => h, fun _ => by simp⟩,
        fun h1 h2 => ?_⟩
      · unfold Get
        rw [if_pos h]
      · exact absurd h (by omega)
    · have ha : a < rows.length := by omega
      have hbk : b < (rows[a]).length := by
        have := hall _ (List.getElem_mem (l := rows) ha)
        omega
      refine ⟨(rows[a])[b], none, ?_, ⟨fun hne => absurd rfl hne, fun hc => absurd hc h⟩,
        fun _ _ => ?_⟩
      · unfold Get
        rw [if_neg h]
        simp [index_natCast, List.getElem?_eq_getElem ha, List.getElem?_eq_getElem hbk]
      · simp [entry, List.getElem?_eq_getElem ha, List.getElem?_eq_getElem hbk]
  · -- Set
    by_cases h : (a : Int) ≥ (rows.length : Int) ∨ (b : Int) ≥ nCols
    · refine ⟨⟨rows.length, nCols, rows⟩, some Error.setBounds, ?_,
        ⟨fun _ => h, fun _ => by simp⟩, fun h1 h2 => ?_⟩
      · unfold Matrix.Set
        rw [if_pos h]
      · exact absurd h (by omega)
    · have ha : a < rows.length := by omega
      have hbk : b < (rows[a]).length := by
        have := hall _ (List.getElem_mem (l := rows) ha)
        omega
      refine ⟨⟨rows.length, nCols, rows.set a ((rows[a]).set b value)⟩, none, ?_,
        ⟨fun hne => absurd rfl hne, fun hc => absurd hc h⟩, fun _ _ => ?_⟩
      · unfold Matrix.Set
        rw [if_neg h]
        simp [index_natCast, List.getElem?_eq_getElem ha, assign_natCast, ha, hbk]
      · simp [entry, ha, hbk]

/-- Witness of C11: the entry `(1, 0)` of `[[1, 2], [3, 4]]`. -/
theorem C11_bounds_checked_access_witness :
    ∃ x e, Get ⟨2, 2, [[fin 1, fin 2], [fin 3, fin 4]]⟩ 1 0 = some (x, e) ∧
      (e ≠ none ↔ ((1 : Int) ≥ 2 ∨ (0 : Int) ≥ 2)) ∧
      ((1 : Int) < 2 → (0 : Int) < 2 →
        entry ⟨2, 2, [[fin 1, fin 2], [fin 3, fin 4]]⟩ 1 0 = some x) :=
  (C11_bounds_checked_access ⟨2, 2, [[fin 1, fin 2], [fin 3, fin 4]]⟩ (by decide) 1 0
    (by decide) (by decide) zero).2.2.1

theorem index_neg {α : Type} (xs : List α) (i : Int) (hi : i < 0) : index xs i = none := by
  simp [index, hi]

/-- C12 at its failing inputs: on a well-formed matrix with at least one row, a negative
index passes the upper-bound test, and `GetRow`, `GetColumn`, `Get`, `Set` and `SwapRows`
abort on the index expression instead of returning an error; `SwapRows(i, i)` with a
negative `i` even succeeds. -/
theorem C12_negative_index_aborts (m : Matrix) (hwf : WellFormed m) (hrows : m.Rows ≠ [])
    (i : Int) (hi : i < 0) (value : Scalar) :
    GetRow m i = none ∧ GetColumn m i = none ∧
    (∀ j : Int, j < m.NCols → Get m i j = none ∧ Matrix.Set m value i j = none) ∧
    (∀ k : Int, 0 ≤ k → k < m.NRows →
      Get m k i = none ∧ Matrix.Set m value k i = none ∧ SwapRows m i k = none ∧
        SwapRows m k i = none) ∧
    SwapRows m i i = some (m, none) := by
  obtain ⟨nRows, nCols, rows⟩ := m
  obtain ⟨hn, hall⟩ := hwf
  simp only at hn hall hrows
  subst hn
  cases rows with
  | nil => exact absurd rfl hrows
  | cons first rest =>
    have hfirst : (first.length : Int) = nCols := hall first (List.mem_cons_self _ _)
    have hrow : ¬ i ≥ (((first :: rest).length : Nat) : Int) := by
      have : (0 : Int) ≤ (((first :: rest).length : Nat) : Int) := Int.ofNat_nonneg _
      omega
    have hcol : ¬ i ≥ nCols := by omega
    refine ⟨?_, ?_, fun j hj => ⟨?_, ?_⟩, fun k hk0 hk => ?_, ?_⟩ <;> dsimp only at *
    · unfold GetRow
      dsimp only
      rw [if_neg hrow, index_neg _ i hi]
      rfl
    · unfold GetColumn
      dsimp only
      rw [if_neg hcol]
      simp [GetColumnLoop, index_neg _ i hi]
    · unfold Get
      dsimp only
      rw [if_neg (by omega), index_neg _ i hi]
      rfl
    · unfold Matrix.Set
      dsimp only
      rw [if_neg (by omega)]
      simp only [index_neg _ i hi]
    · obtain ⟨a, rfl⟩ := Int.eq_ofNat_of_zero_le hk0
      have ha : a < (first :: rest).length := by omega
      have hne : i ≠ (a : Int) := by omega
      have hassign : ∀ v : Scalar, assign ((first :: rest)[a]) i v = none := fun v => by
        unfold assign
        rw [if_neg (by omega)]
      refine ⟨?_, ?_, ?_, ?_⟩
      · unfold Get
        dsimp only
        rw [if_neg (by omega), index_natCast, List.getElem?_eq_getElem ha]
        simp [index_neg _ i hi]
      · unfold Matrix.Set
        dsimp only
        rw [if_neg (by omega), index_natCast, List.getElem?_eq_getElem ha]
        simp only [hassign]
      · unfold SwapRows
        dsimp only
        rw [if_neg (by omega), if_neg hne]
        simp only [index_neg _ i hi]
      · unfold SwapRows
        dsimp only
        rw [if_neg (by omega), if_neg (Ne.symm hne)]
        simp only [index_neg _ i hi, index_natCast, List.getElem?_eq_getElem ha]
    · unfold SwapRows
      dsimp only
      rw [if_neg (by omega), if_pos rfl]

/-- Witness of C12: the index `-1` on `[[1, 2], [3, 4]]`. -/
theorem C12_negative_index_aborts_witness :
    GetRow ⟨2, 2, [[fin 1, fin 2], [fin 3, fin 4]]⟩ (-1) = none ∧
    GetColumn ⟨2, 2, [[fin 1, fin 2], [fin 3, fin 4]]⟩ (-1) = none :=
  ⟨(C12_negative_index_aborts ⟨2, 2, [[fin 1, fin 2], [fin 3, fin 4]]⟩ (by decide)
      (by decide) (-1) (by decide) zero).1,
   (C12_negative_index_aborts ⟨2, 2, [[fin 1, fin 2], [fin 3, fin 4]]⟩ (by decide)
      (by decide) (-1) (by decide) zero).2.1⟩

/-! ## Row swap -/

/-- `SwapRows` on two different valid row indices exchanges the two rows. -/
theorem SwapRows_valid (m : Matrix) (a b : Nat) (ha : a < m.Rows.length)
    (hb : b < m.Rows.length) (hn : m.NRows = (m.Rows.length : Int)) (hab : a ≠ b) :
    SwapRows m a b =
      some ({ m with Rows := (m.Rows.set a (m.Rows[b])).set b (m.Rows[a]) }, none) := by
  unfold SwapRows
  rw [if_neg (by omega), if_neg (by omega)]
  simp [index_natCast, List.getElem?_eq_getElem ha, List.getElem?_eq_getElem hb,
    assign_natCast, ha, hb]

theorem swap_swap_rows (rows : List Row) (a b : Nat) (ha : a < rows.length)
    (hb : b < rows.length) (x y : Row) (hx : rows[a]? = some x) (hy : rows[b]? = some y) :
    (((rows.set a y).set b x).set a x).set b y = rows := by
  apply List.ext_getElem?
  intro k
  by_cases hkb : b = k
  · subst hkb
    simp [List.getElem?_set, hb, hy]
  · by_cases hka : a = k
    · subst hka
      simp [List.getElem?_set, hkb, ha, hx]
    · simp [List.getElem?_set, hkb, hka]

/-- C13: on a well-formed matrix and for non-negative indices, `SwapRows(i, j)` returns an
error and leaves the matrix as it is when `i >= NRows` or `j >= NRows`; otherwise it
succeeds, the new row `i` is the old row `j`, the new row `j` is the old row `i`, the other
rows and the size are unchanged (nothing changes when `i = j`), and a second
`SwapRows(i, j)` gives the original matrix back. -/
theorem C13_swapRows (m : Matrix) (hwf : WellFormed m) (i j : Int) (hi : 0 ≤ i)
    (hj : 0 ≤ j) :
    ((i ≥ m.NRows ∨ j ≥ m.NRows) → SwapRows m i j = some (m, some Error.swapBounds)) ∧
    (i < m.NRows → j < m.NRows →
      ∃ m1, SwapRows m i j = some (m1, none) ∧ Size m1 = Size m ∧
        m1.Rows.length = m.Rows.length ∧
        m1.Rows[i.toNat]? = m.Rows[j.toNat]? ∧ m1.Rows[j.toNat]? = m.Rows[i.toNat]? ∧
        (∀ k : Nat, (k : Int) ≠ i → (k : Int) ≠ j → m1.Rows[k]? = m.Rows[k]?) ∧
        (i = j → m1 = m) ∧
        SwapRows m1 i j = some (m, none)) := by
  obtain ⟨a, rfl⟩ := Int.eq_ofNat_of_zero_le hi
  obtain ⟨b, rfl⟩ := Int.eq_ofNat_of_zero_le hj
  have hn : m.NRows = (m.Rows.length : Int) := hwf.1
  refine ⟨fun h => ?_, fun h1 h2 => ?_⟩
  · unfold SwapRows
    rw [if_pos h]
  · have ha : a < m.Rows.length := by omega
    have hb : b < m.Rows.length := by omega
    simp only [Int.toNat_ofNat]
    by_cases hab : a = b
    · subst hab
      have hsame : SwapRows m a a = some (m, none) := by
        unfold SwapRows
        rw [if_neg (by omega), if_pos rfl]
      exact ⟨m, hsame, rfl, rfl, rfl, rfl, fun _ _ _ => rfl, fun _ => rfl, hsame⟩
    · have hab1 : ¬ ((a : Int) = (b : Int)) := by omega
      refine ⟨_, SwapRows_valid m a b ha hb hn hab, rfl, by simp, ?_, ?_, ?_, ?_, ?_⟩
      · simp [List.getElem?_set, ha, hb, hab, List.getElem?_eq_getElem, List.getElem_set,
          Ne.symm hab]
      · simp [List.getElem?_set, ha, hb, List.getElem?_eq_getElem]
      · intro k hka hkb
        have hka1 : a ≠ k := by omega
        have hkb1 : b ≠ k := by omega
        simp [List.getElem?_set, hka1, hkb1]
      · intro h
        exact absurd h hab1
      · rw [SwapRows_valid _ a b (by simpa using ha) (by simpa using hb) (by simpa using hn)
          hab]
        have hxa : ((m.Rows.set a m.Rows[b]).set b m.Rows[a])[a]? = some (m.Rows[b]) := by
          simp [List.getElem?_set, ha, hab, Ne.symm hab]
        have hxb : ((m.Rows.set a m.Rows[b]).set b m.Rows[a])[b]? = some (m.Rows[a]) := by
          simp [List.getElem?_set, hb]
        have hla : a < ((m.Rows.set a m.Rows[b]).set b m.Rows[a]).length := by simpa using ha
        have hlb : b < ((m.Rows.set a m.Rows[b]).set b m.Rows[a]).length := by simpa using hb
        have hga : ((m.Rows.set a m.Rows[b]).set b m.Rows[a])[a] = m.Rows[b] := by
          rw [List.getElem?_eq_getElem hla] at hxa
          exact Option.some.inj hxa
        have hgb : ((m.Rows.set a m.Rows[b]).set b m.Rows[a])[b] = m.Rows[a] := by
          rw [List.getElem?_eq_getElem hlb] at hxb
          exact Option.some.inj hxb
        simp only [hga, hgb]
        rw [swap_swap_rows m.Rows a b ha hb _ _ (List.getElem?_eq_getElem ha)
          (List.getElem?_eq_getElem hb)]

/-- Witness of C13: rows 0 and 2 of the matrix of `TestSwapRows`. -/
theorem C13_swapRows_witness :
    ∃ m1, SwapRows ⟨3, 2, [[fin 1, fin 1], [fin 2, fin 2], [fin 3, fin 3]]⟩ 0 2 =
        some (m1, none) ∧
      Size m1 = Size ⟨3, 2, [[fin 1, fin 1], [fin 2, fin 2], [fin 3, fin 3]]⟩ ∧
      m1.Rows.length = 3 ∧
      m1.Rows[0]? = some [fin 3, fin 3] ∧ m1.Rows[2]? = some [fin 1, fin 1] ∧
      (∀ k : Nat, (k : Int) ≠ 0 → (k : Int) ≠ 2 →
        m1.Rows[k]? = [[fin 1, fin 1], [fin 2, fin 2], [fin 3, fin 3]][k]?) ∧
      ((0 : Int) = 2 → m1 = ⟨3, 2, [[fin 1, fin 1], [fin 2, fin 2], [fin 3, fin 3]]⟩) ∧
      SwapRows m1 0 2 =
        some (⟨3, 2, [[fin 1, fin 1], [fin 2, fin 2], [fin 3, fin 3]]⟩, none) :=
  (C13_swapRows ⟨3, 2, [[fin 1, fin 1], [fin 2, fin 2], [fin 3, fin 3]]⟩ (by decide) 0 2
    (by decide) (by decide)).2 (by decide) (by decide)

/-! ## Vectors -/

theorem add_commutes (a b : Scalar) : add a b = add b a := by
  cases a <;> cases b <;> simp [Scalar.add, add_comm]

theorem mul_commutes (a b : Scalar) : mul a b = mul b a := by
  cases a <;> cases b <;> simp [Scalar.mul, mul_comm]

/-- The comparator with the default epsilon is reflexive, also on NaN and the infinities. -/
theorem Equals_self (x : Scalar) : Equals x x = true := by
  cases x <;>
    simp [Equals, EqualsWithEpsilon, isNaN, Scalar.sub, Scalar.abs, Scalar.gt, epsilon]
  norm_num

/-- The loop of `Dot` started from the partial sum of the first `k` products. -/
theorem Dot_foldl_eq_sumOver (F : Nat → Scalar) :
    ∀ (v w : Vector) (k : Nat), v.length = w.length →
      (∀ i, i < v.length → F (k + i) = mul (v.getD i zero) (w.getD i zero)) →
      (v.zip w).foldl (fun sum p => add sum (mul p.1 p.2)) (sumOver F k) =
        sumOver F (k + v.length) := by
  intro v
  induction v with
  | nil =>
    intro w k _ _
    simp
  | cons x xs ih =>
    intro w k hlen hF
    cases w with
    | nil => simp at hlen
    | cons y ys =>
      have h0 : F k = mul x y := by simpa using hF 0 (by simp)
      have hstep : add (sumOver F k) (mul x y) = sumOver F (k + 1) := by
        simp [sumOver, h0]
      simp only [List.zip_cons_cons, List.foldl_cons, hstep]
      rw [ih ys (k + 1) (by simpa using hlen)]
      · simp only [List.length_cons]
        congr 1
        omega
      · intro i hi
        have := hF (i + 1) (by simpa using hi)
        simpa [Nat.add_assoc, Nat.add_comm 1 i] using this

/-- C14: `Add` and `Dot` return an error exactly when the lengths differ; on equal lengths
`Add` returns a vector of the same length whose element `i` is `v[i] + w[i]`, and `Dot`
returns the sum over `i` of `v[i] * w[i]`, which is `0` for empty vectors. -/
theorem C14_add_dot (v w : Vector) :
    ((Vector.Add v w).2 ≠ none ↔ v.length ≠ w.length) ∧
    ((Vector.Dot v w).2 ≠ none ↔ v.length ≠ w.length) ∧
    (v.length = w.length →
      (Vector.Add v w).1.length = v.length ∧
      (∀ i, i < v.length →
        (Vector.Add v w).1[i]? = some (add (v.getD i zero) (w.getD i zero))) ∧
      (Vector.Dot v w).1 =
        sumOver (fun i => mul (v.getD i zero) (w.getD i zero)) v.length) ∧
    (Vector.Dot [] []).1 = zero := by
  refine ⟨?_, ?_, fun hlen => ⟨?_, ?_, ?_⟩, rfl⟩
  · by_cases h : v.length = w.length <;> simp [Vector.Add, h]
  · by_cases h : v.length = w.length <;> simp [Vector.Dot, h]
  · simp [Vector.Add, Vector.Copy, hlen]
  · intro i hi
    have hiw : i < w.length := by omega
    simp [Vector.Add, Vector.Copy, hlen, List.getElem?_zipWith, List.getElem?_eq_getElem hi,
      List.getElem?_eq_getElem hiw, List.getD_eq_getElem _ _ hi, List.getD_eq_getElem _ _ hiw]
  · have h := Dot_foldl_eq_sumOver (fun i => mul (v.getD i zero) (w.getD i zero)) v w 0 hlen
      (fun i _ => by simp)
    simp only [sumOver, Nat.zero_add] at h
    simp [Vector.Dot, hlen, h]

/-- Witness of C14: the vectors of `TestDot`. -/
theorem C14_add_dot_witness :
    (Vector.Add [fin 1, fin 2] [fin 3, fin (-1)]).1.length = 2 ∧
    (∀ i, i < 2 → (Vector.Add [fin 1, fin 2] [fin 3, fin (-1)]).1[i]? =
      some (add (([fin 1, fin 2] : Vector).getD i zero)
        (([fin 3, fin (-1)] : Vector).getD i zero))) ∧
    (Vector.Dot [fin 1, fin 2] [fin 3, fin (-1)]).1 =
      sumOver (fun i => mul (([fin 1, fin 2] : Vector).getD i zero)
        (([fin 3, fin (-1)] : Vector).getD i zero)) 2 :=
  (C14_add_dot [fin 1, fin 2] [fin 3, fin (-1)]).2.2.1 rfl

/-- C15: on vectors of equal length `Add` and `Dot` are commutative: `v.Add(w)` and
`w.Add(v)` return the same vector without error, `v.Dot(w)` and `w.Dot(v)` the same
scalar without error, and the comparators `Vector.Equals` and `Equals` report them equal. -/
theorem C15_add_dot_commutative (v w : Vector) (hlen : v.length = w.length) :
    Vector.Add v w = Vector.Add w v ∧ (Vector.Add v w).2 = none ∧
    Vector.Dot v w = Vector.Dot w v ∧ (Vector.Dot v w).2 = none ∧
    Vector.Equals (Vector.Add v w).1 (Vector.Add w v).1 = true ∧
    Equals (Vector.Dot v w).1 (Vector.Dot w v).1 = true := by
  have hadd : Vector.Add v w = Vector.Add w v := by
    simp only [Vector.Add, Vector.Copy, hlen, ne_eq, not_true_eq_false, if_false]
    rw [List.zipWith_comm]
    have hf : (fun (b a : Scalar) => add a b) = add := by
      funext a b
      exact add_commutes b a
    rw [hf]
  have hdot : Vector.Dot v w = Vector.Dot w v := by
    simp only [Vector.Dot, hlen, ne_eq, not_true_eq_false, if_false]
    rw [← List.zip_swap v w, List.foldl_map]
    have hf : (fun (x : Scalar) (y : Scalar × Scalar) => add x (mul y.swap.1 y.swap.2)) =
        (fun sum p => add sum (mul p.1 p.2)) := by
      funext s p
      simp [mul_commutes]
    rw [hf]
  have hrefl : ∀ u : Vector, Vector.EqualsLoop u u = true := by
    intro u
    induction u with
    | nil => rfl
    | cons x xs ih => simp [Vector.EqualsLoop, Equals_self, ih]
  refine ⟨hadd, by simp [Vector.Add, hlen], hdot, by simp [Vector.Dot, hlen], ?_, ?_⟩
  · rw [← hadd]
    simp [Vector.Equals, hrefl]
  · rw [← hdot]
    exact Equals_self _

/-- Witness of C15: the vectors of `TestAdd`. -/
theorem C15_add_dot_commutative_witness :
    Vector.Add [fin (3 / 2), fin (-3 / 2)] [fin (-1 / 2), fin 2] =
      Vector.Add [fin (-1 / 2), fin 2] [fin (3 / 2), fin (-3 / 2)] ∧
    Vector.Dot [fin (3 / 2), fin (-3 / 2)] [fin (-1 / 2), fin 2] =
      Vector.Dot [fin (-1 / 2), fin 2] [fin (3 / 2), fin (-3 / 2)] :=
  ⟨(C15_add_dot_commutative [fin (3 / 2), fin (-3 / 2)] [fin (-1 / 2), fin 2] rfl).1,
   (C15_add_dot_commutative [fin (3 / 2), fin (-3 / 2)] [fin (-1 / 2), fin 2] rfl).2.2.1⟩

theorem Vector_EqualsLoop_iff :
    ∀ (v w : Vector), v.length = w.length →
      (Vector.EqualsLoop v w = true ↔
        ∀ i, i < v.length → Equals (v.getD i zero) (w.getD i zero) = true) := by
  intro v
  induction v with
  | nil =>
    intro w _
    simp [Vector.EqualsLoop]
  | cons x xs ih =>
    intro w hlen
    cases w with
    | nil => simp at hlen
    | cons y ys =>
      have hl : xs.length = ys.length := by simpa using hlen
      constructor
      · intro h i hi
        by_cases hxy : Equals x y = true
        · have hrest : Vector.EqualsLoop xs ys = true := by
            simpa [Vector.EqualsLoop, hxy] using h
          cases i with
          | zero => simpa using hxy
          | succ n => simpa using (ih ys hl).1 hrest n (by simpa using hi)
        · simp [Vector.EqualsLoop, hxy] at h
      · intro h
        have hxy : Equals x y = true := by simpa using h 0 (by simp)
        have hrest : Vector.EqualsLoop xs ys = true :=
          (ih ys hl).2 (fun i hi => by simpa using h (i + 1) (by simpa using hi))
        simp [Vector.EqualsLoop, hxy, hrest]

/-- C16: `Vector.Equals` is false when the lengths differ and otherwise true exactly when
`Equals(v[i], w[i])` holds at every index; two empty vectors are equal, NaN matches NaN at
the same position, and NaN matches no scalar that is not NaN. -/
theorem C16_vector_equals (v w : Vector) :
    (v.length ≠ w.length → Vector.Equals v w = false) ∧
    (v.length = w.length →
      (Vector.Equals v w = true ↔
        ∀ i, i < v.length → Equals (v.getD i zero) (w.getD i zero) = true)) ∧
    Vector.Equals [] [] = true ∧ Vector.Equals [nan] [nan] = true ∧
    (∀ x : Scalar, isNaN x = false →
      Vector.Equals [nan] [x] = false ∧ Vector.Equals [x] [nan] = false) := by
  refine ⟨fun h => by simp [Vector.Equals, h], fun h => ?_, by decide, by decide,
    fun x hx => ?_⟩
  · rw [← Vector_EqualsLoop_iff v w h]
    simp [Vector.Equals, h]
  · cases x <;>
      simp_all [Vector.Equals, Vector.EqualsLoop, Equals, EqualsWithEpsilon, isNaN]

/-- Witness of C16: vectors of `TestEquals`, with equal and with different lengths. -/
theorem C16_vector_equals_witness :
    Vector.Equals [fin 0] [fin 0, fin (11 / 10)] = false ∧
    (Vector.Equals [fin 0, fin (11 / 10)] [fin 0, fin 2] = true ↔
      ∀ i, i < 2 → Equals (([fin 0, fin (11 / 10)] : Vector).getD i zero)
        (([fin 0, fin 2] : Vector).getD i zero) = true) :=
  ⟨(C16_vector_equals [fin 0] [fin 0, fin (11 / 10)]).1 (by decide),
   (C16_vector_equals [fin 0, fin (11 / 10)] [fin 0, fin 2]).2.1 rfl⟩

/-! ## Transposition -/

/-- On a non-empty list of rows of one length `New` succeeds and keeps the rows. -/
theorem New_of_uniform (rows : List Row) (n : Nat) (hne : rows ≠ [])
    (hall : ∀ row ∈ rows, row.length = n) :
    New rows = (⟨(rows.length : Int), (n : Int), rows⟩, none) := by
  cases rows with
  | nil => exact absurd rfl hne
  | cons first rest =>
    have hfirst : first.length = n := hall first (List.mem_cons_self _ _)
    subst hfirst
    have hloop : NewLoop first.length (first :: rest) = some (first :: rest) :=
      (NewLoop_eq_some_iff _ _ _).2 ⟨fun row hrow => hall row hrow, rfl⟩
    simp [New, hloop]

/-- On a matrix whose rows all have `c` elements, the loop of `GetTranspose` collects the
columns `i, i + 1, ..., i + count - 1` as long as they are columns of the matrix. -/
theorem GetTransposeLoop_eq (m : Matrix) (c : Nat) (hc : m.NCols = (c : Int))
    (hall : ∀ row ∈ m.Rows, row.length = c) :
    ∀ (count i : Nat), i + count ≤ c →
      GetTransposeLoop m count (i : Int) =
        some ((List.range' i count).map
          (fun j => m.Rows.map (fun row => row.getD j zero))) := by
  intro count
  induction count with
  | zero =>
    intro i _
    rfl
  | succ count ih =>
    intro i hi
    have hcol : GetColumn m (i : Int) =
        some (m.Rows.map (fun row => row.getD i zero), none) := by
      unfold GetColumn
      rw [if_neg (by omega),
        GetColumnLoop_eq i m.Rows (fun row hrow => by rw [hall row hrow]; omega)]
      rfl
    have hnext := ih (i + 1) (by omega)
    rw [Nat.cast_add, Nat.cast_one] at hnext
    simp [GetTransposeLoop, hcol, hnext, List.range']

/-- C17: on a well-formed matrix with at least one row and one column, `GetTranspose`
returns a matrix of size `(NCols, NRows)` whose row `j` is the column `j` that `GetColumn`
returns, so that its entry `(j, i)` is the entry `(i, j)` of the original. -/
theorem C17_transpose (m : Matrix) (hwf : WellFormed m) (_hrows : 1 ≤ m.NRows)
    (hcols : 1 ≤ m.NCols) :
    ∃ t, GetTranspose m = some t ∧ Size t = (m.NCols, m.NRows) ∧
      (∀ j : Nat, (j : Int) < m.NCols →
        ∃ column, GetColumn m j = some (column, none) ∧ t.Rows[j]? = some column) ∧
      (∀ i j : Nat, (i : Int) < m.NRows → (j : Int) < m.NCols →
        entry t j i = entry m i j ∧ (entry m i j).isSome = true) := by
  obtain ⟨c, hc⟩ := Int.eq_ofNat_of_zero_le (show 0 ≤ m.NCols by omega)
  have hn : m.NRows = (m.Rows.length : Int) := hwf.1
  have hall : ∀ row ∈ m.Rows, row.length = c := fun row hrow => by
    have := hwf.2 row hrow
    omega
  have hcpos : 0 < c := by omega
  have hloop := GetTransposeLoop_eq m c hc hall c 0 (by omega)
  have hne : (List.range' 0 c).map (fun j => m.Rows.map (fun row => row.getD j zero)) ≠ [] := by
    intro h
    have := congrArg List.length h
    simp at this
    omega
  have hnew := New_of_uniform _ m.Rows.length hne (by
    intro row hrow
    obtain ⟨j, -, rfl⟩ := List.mem_map.1 hrow
    simp)
  have hcol : ∀ j : Nat, (j : Int) < m.NCols →
      GetColumn m (j : Int) = some (m.Rows.map (fun row => row.getD j zero), none) := by
    intro j hj
    unfold GetColumn
    rw [if_neg (by omega),
      GetColumnLoop_eq j m.Rows (fun row hrow => by rw [hall row hrow]; omega)]
    rfl
  simp only [List.length_map, List.length_range'] at hnew
  refine ⟨⟨(c : Int), (m.Rows.length : Int),
    (List.range' 0 c).map (fun j => m.Rows.map (fun row => row.getD j zero))⟩, ?_, ?_, ?_, ?_⟩
  · unfold GetTranspose
    rw [hc, Int.toNat_ofNat]
    rw [show ((0 : Nat) : Int) = 0 from rfl] at hloop
    rw [hloop, Option.map_some', hnew]
  · simp [Size, hc, hn]
  · intro j hj
    have hjc : j < c := by omega
    refine ⟨_, hcol j hj, ?_⟩
    simp [List.getElem?_map, List.getElem?_range', hjc]
  · intro i j hi hj
    have hjc : j < c := by omega
    have hil : i < m.Rows.length := by omega
    have hjl : j < (m.Rows[i]).length := by
      rw [hall _ (List.getElem_mem _)]
      exact hjc
    simp [entry, List.getElem?_map, List.getElem?_range', hjc, List.getElem?_eq_getElem hil,
      List.getD_eq_getElem _ _ hjl, List.getElem?_eq_getElem hjl]

/-- Witness of C17: the matrix of `TestGetTranspose`. -/
theorem C17_transpose_witness :
    ∃ t, GetTranspose ⟨2, 4, [[fin 11, fin 12, fin 13, fin 14],
        [fin 21, fin 22, fin 23, fin 24]]⟩ = some t ∧
      Size t = ((4 : Int), (2 : Int)) ∧
      (∀ j : Nat, (j : Int) < 4 →
        ∃ column, GetColumn ⟨2, 4, [[fin 11, fin 12, fin 13, fin 14],
            [fin 21, fin 22, fin 23, fin 24]]⟩ j = some (column, none) ∧
          t.Rows[j]? = some column) ∧
      (∀ i j : Nat, (i : Int) < 2 → (j : Int) < 4 →
        entry t j i = entry ⟨2, 4, [[fin 11, fin 12, fin 13, fin 14],
            [fin 21, fin 22, fin 23, fin 24]]⟩ i j ∧
          (entry ⟨2, 4, [[fin 11, fin 12, fin 13, fin 14],
            [fin 21, fin 22, fin 23, fin 24]]⟩ i j).isSome = true) :=
  C17_transpose ⟨2, 4, [[fin 11, fin 12, fin 13, fin 14], [fin 21, fin 22, fin 23, fin 24]]⟩
    (by decide) (by decide) (by decide)

/-! ## The column cursor of the reducer -/

/-- The outer loop run for `a + b` iterations is the loop run for `a` iterations followed
by the loop run for `b` iterations from the state reached. -/
theorem ReduceLoop_add (a b : Nat) :
    ∀ (r : Int) (state : Matrix × Int),
      ReduceLoop (a + b) r state =
        (ReduceLoop a r state).bind (fun state1 => ReduceLoop b (r + (a : Int)) state1) := by
  induction a with
  | zero =>
    intro r state
    simp [ReduceLoop]
  | succ a ih =>
    intro r state
    rw [Nat.add_right_comm]
    cases hstep : ReduceStep state r with
    | none => simp [ReduceLoop, hstep]
    | some state1 =>
      simp only [ReduceLoop, hstep, ih (r + 1) state1]
      push_cast
      rw [add_assoc, add_comm (1 : Int) (a : Int)]

/-- After `count` iterations that did not abort the cursor has advanced by `count`. -/
theorem ReduceLoop_cursor (count : Nat) :
    ∀ (r : Int) (state state1 : Matrix × Int),
      ReduceLoop count r state = some state1 → state1.2 = state.2 + (count : Int) := by
  induction count with
  | zero =>
    intro r state state1 h
    simp only [ReduceLoop, Option.some.injEq] at h
    simp [← h]
  | succ count ih =>
    intro r state state1 h
    cases hstep : ReduceStep state r with
    | none => simp [ReduceLoop, hstep] at h
    | some state2 =>
      simp only [ReduceLoop, hstep] at h
      rw [ih (r + 1) state2 state1 h, (ReduceStep_some state state2 r hstep).2]
      push_cast
      ring

/-! ## One iteration of the reducer on a well-formed matrix -/

/-- The pivot search either finds nothing, all elements being `Equals` to `0.0`, or stops
at the first element that is not. -/
theorem FindPivotLoop_spec (r : Int) (tail : List Scalar) :
    ∀ i : Int,
      (FindPivotLoop r i tail = -1 ∧ ∀ x ∈ tail, Equals x zero = true) ∨
      (∃ k : Nat, k < tail.length ∧ FindPivotLoop r i tail = r + i + (k : Int) ∧
        Equals (tail.getD k zero) zero = false) := by
  induction tail with
  | nil =>
    intro i
    left
    exact ⟨rfl, fun x hx => absurd hx (List.not_mem_nil x)⟩
  | cons x rest ih =>
    intro i
    by_cases hx : Equals x zero = true
    · rcases ih (i + 1) with ⟨h1, h2⟩ | ⟨k, hk, h1, h2⟩
      · left
        refine ⟨by simp [FindPivotLoop, hx, h1], fun y hy => ?_⟩
        rcases List.mem_cons.1 hy with rfl | hy
        · exact hx
        · exact h2 y hy
      · right
        refine ⟨k + 1, by simpa using hk, ?_, by simpa using h2⟩
        simp only [FindPivotLoop, hx, Bool.not_true, Bool.false_eq_true, if_false, h1]
        push_cast
        ring
    · right
      refine ⟨0, by simp, ?_, by simpa using hx⟩
      simp [FindPivotLoop, hx]

theorem index_add_one (rows : List Row) (r r2 : Nat) :
    index rows ((r : Int) + (r2 : Int) + 1) = rows[r + r2 + 1]? := by
  rw [← index_natCast]
  congr 1

/-- The elimination loop replaces every row below the pivot row by its `EliminateRow`. -/
theorem EliminateLoop_eq (r cc : Nat) (pivot : Row) (hcc : cc < pivot.length) :
    ∀ (post pre : List Row) (r2 : Nat), pre.length = r + r2 + 1 → pre[r]? = some pivot →
      (∀ lower ∈ post, lower.length = pivot.length) →
      EliminateLoop (r : Int) (cc : Int) post.length (r2 : Int) (pre ++ post) =
        some (pre ++ post.map (EliminateRow pivot cc)) := by
  intro post
  induction post with
  | nil =>
    intro pre r2 _ _ _
    simp [EliminateLoop]
  | cons lower post ih =>
    intro pre r2 hpre hpivot hlen
    have hl : lower.length = pivot.length := hlen lower (List.mem_cons_self _ _)
    have hrlt : r < pre.length := by omega
    have h1 : index (pre ++ lower :: post) ((r : Int) + (r2 : Int) + 1) = some lower := by
      rw [index_add_one, ← hpre, List.getElem?_append_right (le_refl _)]
      simp
    have h2 : index (pre ++ lower :: post) (r : Int) = some pivot := by
      rw [index_natCast, List.getElem?_append_left hrlt, hpivot]
    have h3 : index lower (cc : Int) = some (lower.getD cc zero) := by
      rw [index_natCast, List.getElem?_eq_getElem (by omega),
        List.getD_eq_getElem _ _ (by omega)]
    have h4 : index pivot (cc : Int) = some (pivot.getD cc zero) := by
      rw [index_natCast, List.getElem?_eq_getElem hcc, List.getD_eq_getElem _ _ hcc]
    have h5 : ∀ v : Row, assign (pre ++ lower :: post) ((r : Int) + (r2 : Int) + 1) v =
        some ((pre ++ [v]) ++ post) := by
      intro v
      have hcast : ((r : Int) + (r2 : Int) + 1) = ((pre.length : Nat) : Int) := by
        rw [hpre]
        push_cast
        ring
      rw [hcast, assign_natCast _ _ _ (by simp)]
      simp
    have hih := ih (pre ++ [EliminateRow pivot cc lower]) (r2 + 1)
      (by simp [hpre]; omega)
      (by rw [List.getElem?_append_left hrlt, hpivot])
      (fun l hl1 => hlen l (List.mem_cons_of_mem _ hl1))
    simp only [List.length_cons, EliminateLoop, h1, h2, h3, h4]
    rw [show (Vector.Add lower (Vector.ScalarMult pivot
        (div (neg (lower.getD cc zero)) (pivot.getD cc zero)))).1 =
        EliminateRow pivot cc lower from rfl, h5]
    simp only
    rw [show ((r2 : Int) + 1) = ((r2 + 1 : Nat) : Int) by push_cast; rfl, hih]
    simp

theorem sliceFrom_natCast {α : Type} (xs : List α) (n : Nat) (h : n ≤ xs.length) :
    sliceFrom xs (n : Int) = some (xs.drop n) := by
  simp [sliceFrom, h]

theorem index_getD {α : Type} (xs : List α) (j : Nat) (d : α) (h : j < xs.length) :
    index xs (j : Int) = some (xs.getD j d) := by
  rw [index_natCast, List.getElem?_eq_getElem h, List.getD_eq_getElem xs d h]

theorem set_getD_self (rows : List Row) (r : Nat) :
    (rows.set r (rows.getD r [])).set r (rows.getD r []) = rows := by
  apply List.ext_getElem?
  intro k
  by_cases hk : r = k
  · subst hk
    by_cases hr : r < rows.length
    · simp [List.getElem?_set, hr, List.getD_eq_getElem _ _ hr]
    · simp [List.getElem?_set, hr, List.getElem?_eq_none (not_lt.1 hr)]
  · simp [List.getElem?_set, hk]

/-- The matrix after `SwapRows(r, p)` for two valid row indices, equal or not. -/
theorem SwapRows_getD (m : Matrix) (r p : Nat) (hr : r < m.Rows.length)
    (hp : p < m.Rows.length) (hn : m.NRows = (m.Rows.length : Int)) :
    ∃ e, SwapRows m (r : Int) (p : Int) =
      some ({ m with Rows := (m.Rows.set r (m.Rows.getD p [])).set p (m.Rows.getD r []) },
        e) := by
  by_cases hrp : r = p
  · subst hrp
    refine ⟨none, ?_⟩
    unfold SwapRows
    rw [if_neg (by omega), if_pos rfl, set_getD_self]
  · refine ⟨none, ?_⟩
    rw [SwapRows_valid m r p hr hp hn hrp, List.getD_eq_getElem _ _ hr,
      List.getD_eq_getElem _ _ hp]

/-- One iteration of the outer loop on a matrix whose rows all have `n` elements, for a
row index and a cursor that are in range: the iteration does not abort; either the column
has no pivot from row `r` down and only the cursor advances, or the pivot is found in a
row `p >= r` and the rows become `PivotStep`. -/
theorem ReduceStep_cases (m : Matrix) (n r cc : Nat) (hn : m.NCols = (n : Int))
    (hL : m.NRows = (m.Rows.length : Int)) (hall : ∀ row ∈ m.Rows, row.length = n)
    (hr : r < m.Rows.length) (hcc : cc < n) :
    (ReduceStep (m, (cc : Int)) (r : Int) = some (m, (cc : Int) + 1) ∧
      ∀ k, r ≤ k → k < m.Rows.length →
        Equals ((m.Rows.getD k []).getD cc zero) zero = true) ∨
    (∃ p, r ≤ p ∧ p < m.Rows.length ∧
      Equals ((m.Rows.getD p []).getD cc zero) zero = false ∧
      ReduceStep (m, (cc : Int)) (r : Int) =
        some ({ m with Rows := PivotStep m.Rows r p cc }, (cc : Int) + 1)) := by
  have hcol : GetColumn m (cc : Int) =
      some (m.Rows.map (fun row => row.getD cc zero), none) := by
    unfold GetColumn
    rw [if_neg (by omega),
      GetColumnLoop_eq cc m.Rows (fun row hrow => by rw [hall row hrow]; exact hcc)]
    rfl
  have hslice : sliceFrom (m.Rows.map (fun row => row.getD cc zero)) (r : Int) =
      some ((m.Rows.map (fun row => row.getD cc zero)).drop r) :=
    sliceFrom_natCast _ _ (by simp; omega)
  have hget : ∀ k, k < m.Rows.length - r →
      (List.drop r (m.Rows.map (fun row => row.getD cc zero))).getD k zero =
        (m.Rows.getD (r + k) []).getD cc zero := by
    intro k hk
    have hk1 : r + k < m.Rows.length := by omega
    simp [List.getD_eq_getElem?_getD, List.getElem?_drop, List.getElem?_map,
      List.getElem?_eq_getElem hk1]
  rcases FindPivotLoop_spec (r : Int) ((m.Rows.map (fun row => row.getD cc zero)).drop r) 0
    with ⟨hnone, hzero⟩ | ⟨k, hk, hfound, hnz⟩
  · left
    refine ⟨by simp only [ReduceStep, hcol, hslice, hnone, if_true], fun k hrk hk => ?_⟩
    have hmem : (m.Rows.getD k []).getD cc zero ∈
        (m.Rows.map (fun row => row.getD cc zero)).drop r := by
      have hk2 : k - r < m.Rows.length - r := by omega
      rw [← show r + (k - r) = k by omega, ← hget (k - r) hk2]
      have hlen : k - r < ((m.Rows.map (fun row => row.getD cc zero)).drop r).length := by
        simpa using hk2
      rw [List.getD_eq_getElem _ _ hlen]
      exact List.getElem_mem _
    exact hzero _ hmem
  · right
    have hk1 : k < m.Rows.length - r := by simpa using hk
    have hp : r + k < m.Rows.length := by omega
    refine ⟨r + k, by omega, hp, by rw [← hget k hk1]; exact hnz, ?_⟩
    have hfound1 : FindPivotLoop (r : Int)
        0 ((m.Rows.map (fun row => row.getD cc zero)).drop r) = ((r + k : Nat) : Int) := by
      rw [hfound]
      push_cast
      ring
    have hne : ¬ (((r + k : Nat) : Int) = -1) := by omega
    obtain ⟨e, hswap⟩ := SwapRows_getD m r (r + k) hr hp hL
    have hSlen : ((m.Rows.set r (m.Rows.getD (r + k) [])).set (r + k)
        (m.Rows.getD r [])).length = m.Rows.length := by simp
    have hSall : ∀ row ∈ (m.Rows.set r (m.Rows.getD (r + k) [])).set (r + k)
        (m.Rows.getD r []), row.length = n := by
      intro row hrow
      rcases List.mem_or_eq_of_mem_set hrow with h1 | h1
      · rcases List.mem_or_eq_of_mem_set h1 with h2 | h2
        · exact hall row h2
        · rw [h2, List.getD_eq_getElem _ _ hp]
          exact hall _ (List.getElem_mem _)
      · rw [h1, List.getD_eq_getElem _ _ hr]
        exact hall _ (List.getElem_mem _)
    generalize hS : (m.Rows.set r (m.Rows.getD (r + k) [])).set (r + k)
        (m.Rows.getD r []) = S at hswap hSlen hSall
    have hrS : r < S.length := by omega
    have hrowlen : (S.getD r []).length = n := by
      rw [List.getD_eq_getElem _ _ hrS]
      exact hSall _ (List.getElem_mem _)
    have hidx : index S (r : Int) = some (S.getD r []) := index_getD S r [] hrS
    have hpiv : index (S.getD r []) (cc : Int) = some ((S.getD r []).getD cc zero) :=
      index_getD _ cc zero (by omega)
    generalize hP : Vector.ScalarMult (S.getD r []) (div one ((S.getD r []).getD cc zero)) =
      pivotRow
    have hPlen : pivotRow.length = n := by
      rw [← hP]
      simp only [Vector.ScalarMult, Vector.Copy, List.length_map]
      exact hrowlen
    have hassign : assign S (r : Int) pivotRow = some (S.set r pivotRow) :=
      assign_natCast _ _ _ hrS
    have hslice2 : sliceFrom (S.set r pivotRow) ((r : Int) + 1) =
        some ((S.set r pivotRow).drop (r + 1)) := by
      rw [show ((r : Int) + 1) = ((r + 1 : Nat) : Int) by push_cast; rfl]
      exact sliceFrom_natCast _ _ (by simp; omega)
    have helim := EliminateLoop_eq r cc pivotRow (by omega)
      ((S.set r pivotRow).drop (r + 1)) ((S.set r pivotRow).take (r + 1)) 0
      (by simp; omega)
      (by simp [List.getElem?_take, List.getElem?_set, hrS])
      (by
        intro lower hlower
        have hmem := List.mem_of_mem_drop hlower
        rcases List.mem_or_eq_of_mem_set hmem with h1 | h1
        · rw [hSall lower h1, hPlen]
        · rw [h1])
    rw [List.take_append_drop] at helim
    simp only [Nat.cast_zero] at helim
    simp only [ReduceStep, hcol, hslice, hfound1, hne, if_false, hswap, hidx, Option.some_bind,
      hpiv, hP, hassign, hslice2, helim, Option.map_some']
    simp only [PivotStep, hS, hP]

/-! ## Rows with finite entries -/

/-- The finite scalars are the values `fin q`. -/
theorem isFinite_iff (x : Scalar) : isFinite x = true ↔ ∃ q, x = fin q := by
  cases x <;> simp [isFinite]

theorem getD_ScalarMult (row : Row) (c : Scalar) (j : Nat) (hj : j < row.length) :
    (Vector.ScalarMult row c).getD j zero = mul (row.getD j zero) c := by
  simp [Vector.ScalarMult, Vector.Copy, List.getD_eq_getElem?_getD, List.getElem?_map,
    List.getElem?_eq_getElem hj]

theorem length_ScalarMult (row : Row) (c : Scalar) :
    (Vector.ScalarMult row c).length = row.length := by
  simp [Vector.ScalarMult, Vector.Copy]

theorem length_Add (a b : Row) (h : a.length = b.length) :
    (Vector.Add a b).1.length = a.length := by
  simp [Vector.Add, Vector.Copy, h]

theorem getD_Add (a b : Row) (h : a.length = b.length) (j : Nat) (hj : j < a.length) :
    (Vector.Add a b).1.getD j zero = add (a.getD j zero) (b.getD j zero) := by
  have hjb : j < b.length := by omega
  simp [Vector.Add, Vector.Copy, h, List.getD_eq_getElem?_getD, List.getElem?_zipWith,
    List.getElem?_eq_getElem hj, List.getElem?_eq_getElem hjb]

theorem length_EliminateRow (pivot lower : Row) (cc : Nat) (h : lower.length = pivot.length) :
    (EliminateRow pivot cc lower).length = lower.length := by
  unfold EliminateRow
  rw [length_Add _ _ (by rw [length_ScalarMult, h])]

theorem getD_EliminateRow (pivot lower : Row) (cc : Nat) (h : lower.length = pivot.length)
    (j : Nat) (hj : j < lower.length) :
    (EliminateRow pivot cc lower).getD j zero =
      add (lower.getD j zero)
        (mul (pivot.getD j zero) (div (neg (lower.getD cc zero)) (pivot.getD cc zero))) := by
  unfold EliminateRow
  rw [getD_Add _ _ (by rw [length_ScalarMult, h]) j hj, getD_ScalarMult _ _ j (by omega)]

/-- A row is finite when all its elements are. -/
theorem finite_of_getD (row : Row)
    (h : ∀ j, j < row.length → isFinite (row.getD j zero) = true) :
    ∀ x ∈ row, isFinite x = true := by
  intro x hx
  obtain ⟨j, hj, rfl⟩ := List.getElem_of_mem hx
  have := h j hj
  rwa [List.getD_eq_getElem _ _ hj] at this

theorem getD_finite (row : Row) (h : ∀ x ∈ row, isFinite x = true) (j : Nat)
    (hj : j < row.length) : ∃ q, row.getD j zero = fin q := by
  rw [List.getD_eq_getElem _ _ hj]
  exact (isFinite_iff _).1 (h _ (List.getElem_mem _))

/-- The pivot row after normalisation by a finite pivot that is not zero: same length,
finite entries, `1` in the pivot column, and `0` wherever the row had `0`. -/
theorem normalised_row (row : Row) (cc : Nat) (q : ℚ) (hfin : ∀ x ∈ row, isFinite x = true)
    (hcc : cc < row.length) (hq : row.getD cc zero = fin q) (hq0 : q ≠ 0) :
    (∀ x ∈ Vector.ScalarMult row (div one (row.getD cc zero)), isFinite x = true) ∧
    (Vector.ScalarMult row (div one (row.getD cc zero))).getD cc zero = one ∧
    ∀ j, j < row.length → row.getD j zero = zero →
      (Vector.ScalarMult row (div one (row.getD cc zero))).getD j zero = zero := by
  have hdiv : div one (fin q) = fin (1 / q) := by simp [Scalar.div, one, hq0]
  rw [hq, hdiv]
  refine ⟨?_, ?_, ?_⟩
  · apply finite_of_getD
    intro j hj
    rw [length_ScalarMult] at hj
    obtain ⟨a, ha⟩ := getD_finite row hfin j hj
    rw [getD_ScalarMult _ _ j hj, ha]
    rfl
  · rw [getD_ScalarMult _ _ cc hcc, hq]
    simp [Scalar.mul, one, hq0]
  · intro j hj hz
    rw [getD_ScalarMult _ _ j hj, hz]
    simp [Scalar.mul, zero]

/-- A lower row after elimination against a finite pivot row with `1` in the pivot column:
finite entries, `0` in the pivot column, and `0` wherever both rows had `0`. -/
theorem eliminated_row (pivot lower : Row) (cc : Nat) (hlen : lower.length = pivot.length)
    (hcc : cc < pivot.length) (hpf : ∀ x ∈ pivot, isFinite x = true)
    (hlf : ∀ x ∈ lower, isFinite x = true) (hone : pivot.getD cc zero = one) :
    (∀ x ∈ EliminateRow pivot cc lower, isFinite x = true) ∧
    (EliminateRow pivot cc lower).getD cc zero = zero ∧
    ∀ j, j < lower.length → lower.getD j zero = zero → pivot.getD j zero = zero →
      (EliminateRow pivot cc lower).getD j zero = zero := by
  obtain ⟨a, ha⟩ := getD_finite lower hlf cc (by omega)
  have hdiv : div (neg (fin a)) one = fin (-a) := by simp [Scalar.div, Scalar.neg, one]
  refine ⟨?_, ?_, ?_⟩
  · apply finite_of_getD
    intro j hj
    rw [length_EliminateRow _ _ _ hlen] at hj
    obtain ⟨l, hl⟩ := getD_finite lower hlf j hj
    obtain ⟨p, hp⟩ := getD_finite pivot hpf j (by omega)
    rw [getD_EliminateRow _ _ _ hlen j hj, hone, ha, hdiv, hl, hp]
    rfl
  · rw [getD_EliminateRow _ _ _ hlen cc (by omega), hone, ha, hdiv]
    simp [Scalar.mul, Scalar.add, one, zero]
  · intro j hj hz hpz
    rw [getD_EliminateRow _ _ _ hlen j hj, hone, ha, hdiv, hz, hpz]
    simp [Scalar.mul, Scalar.add, zero]

/-! ## The rows after an iteration that found a pivot -/

theorem swapped_getD (rows : List Row) (r p : Nat) (hr : r < rows.length) :
    ((rows.set r (rows.getD p [])).set p (rows.getD r [])).getD r [] = rows.getD p [] := by
  by_cases hrp : p = r
  · subst hrp
    simp [List.getD_eq_getElem?_getD, List.getElem?_set, hr]
  · simp [List.getD_eq_getElem?_getD, List.getElem?_set, hrp, hr]

theorem mem_swapped (rows : List Row) (r p : Nat) (hr : r < rows.length)
    (hp : p < rows.length) (row : Row)
    (h : row ∈ (rows.set r (rows.getD p [])).set p (rows.getD r [])) : row ∈ rows := by
  rcases List.mem_or_eq_of_mem_set h with h1 | h1
  · rcases List.mem_or_eq_of_mem_set h1 with h2 | h2
    · exact h2
    · rw [h2, List.getD_eq_getElem _ _ hp]
      exact List.getElem_mem _
  · rw [h1, List.getD_eq_getElem _ _ hr]
    exact List.getElem_mem _

/-- Every row after the iteration is a row from before, the normalised pivot row, or the
`EliminateRow` of a row from before. -/
theorem mem_PivotStep (rows : List Row) (r p cc : Nat) (hr : r < rows.length)
    (hp : p < rows.length) (row : Row) (h : row ∈ PivotStep rows r p cc) :
    row ∈ rows ∨
    row = Vector.ScalarMult (rows.getD p []) (div one ((rows.getD p []).getD cc zero)) ∨
    ∃ lower ∈ rows, row = EliminateRow
      (Vector.ScalarMult (rows.getD p []) (div one ((rows.getD p []).getD cc zero))) cc
      lower := by
  simp only [PivotStep, swapped_getD rows r p hr] at h
  rw [List.drop_set_of_lt _ _ (Nat.lt_succ_self r)] at h
  rcases List.mem_append.1 h with h1 | h1
  · rcases List.mem_or_eq_of_mem_set (List.mem_of_mem_take h1) with h2 | h2
    · exact Or.inl (mem_swapped rows r p hr hp row h2)
    · exact Or.inr (Or.inl h2)
  · obtain ⟨lower, hl, rfl⟩ := List.mem_map.1 h1
    exact Or.inr (Or.inr ⟨lower, mem_swapped rows r p hr hp lower (List.mem_of_mem_drop hl),
      rfl⟩)

theorem length_PivotStep (rows : List Row) (r p cc : Nat) :
    (PivotStep rows r p cc).length = rows.length := by
  simp only [PivotStep, List.length_append, List.length_take, List.length_map,
    List.length_drop, List.length_set]
  omega

/-- An iteration below the first row leaves the first row alone. -/
theorem PivotStep_cons (first : Row) (rest : List Row) (r p cc : Nat) :
    PivotStep (first :: rest) (r + 1) (p + 1) cc = first :: PivotStep rest r p cc := by
  simp [PivotStep]

/-- The iteration for the first row: the normalised pivot row, followed by the
`EliminateRow` of rows from before. -/
theorem PivotStep_zero (rows : List Row) (p cc : Nat) (hr : 0 < rows.length)
    (hp : p < rows.length) :
    ∃ others : List Row, (∀ lower ∈ others, lower ∈ rows) ∧
      PivotStep rows 0 p cc =
        Vector.ScalarMult (rows.getD p []) (div one ((rows.getD p []).getD cc zero)) ::
          others.map (EliminateRow
            (Vector.ScalarMult (rows.getD p []) (div one ((rows.getD p []).getD cc zero)))
            cc) := by
  refine ⟨((rows.set 0 (rows.getD p [])).set p (rows.getD 0 [])).drop 1,
    fun lower hl => mem_swapped rows 0 p hr hp lower (List.mem_of_mem_drop hl), ?_⟩
  simp only [PivotStep, swapped_getD rows 0 p hr]
  rw [List.drop_set_of_lt _ _ (Nat.lt_succ_self 0)]
  have hS : 0 < ((rows.set 0 (rows.getD p [])).set p (rows.getD 0 [])).length := by
    simpa using hr
  generalize (rows.set 0 (rows.getD p [])).set p (rows.getD 0 []) = S at hS
  cases S with
  | nil => simp at hS
  | cons s ss => simp

/-- A finite scalar that is not `Equals` to `0.0` is not zero. -/
theorem ne_zero_of_not_Equals (q : ℚ) (h : Equals (fin q) zero = false) : q ≠ 0 := by
  intro hq
  subst hq
  simp [Equals, EqualsWithEpsilon, isNaN, Scalar.sub, Scalar.abs, Scalar.gt, epsilon, zero] at h
  exact absurd h (by norm_num)

/-- An iteration that found a pivot keeps the common length of the rows. -/
theorem PivotStep_uniform (rows : List Row) (n r p cc : Nat) (hr : r < rows.length)
    (hp : p < rows.length) (hall : ∀ row ∈ rows, row.length = n) :
    ∀ row ∈ PivotStep rows r p cc, row.length = n := by
  have hpl : (rows.getD p []).length = n := by
    rw [List.getD_eq_getElem _ _ hp]
    exact hall _ (List.getElem_mem _)
  intro row hrow
  rcases mem_PivotStep rows r p cc hr hp row hrow with h | h | ⟨lower, hl, h⟩
  · exact hall row h
  · rw [h, length_ScalarMult, hpl]
  · rw [h, length_EliminateRow _ _ _ (by rw [length_ScalarMult, hpl, hall lower hl]),
      hall lower hl]

/-- An iteration that found a pivot in finite rows keeps the rows finite. -/
theorem PivotStep_finite (rows : List Row) (n r p cc : Nat) (hr : r < rows.length)
    (hp : p < rows.length) (hcc : cc < n) (hall : ∀ row ∈ rows, row.length = n)
    (hfin : ∀ row ∈ rows, ∀ x ∈ row, isFinite x = true)
    (hnz : Equals ((rows.getD p []).getD cc zero) zero = false) :
    ∀ row ∈ PivotStep rows r p cc, ∀ x ∈ row, isFinite x = true := by
  have hpm : rows.getD p [] ∈ rows := by
    rw [List.getD_eq_getElem _ _ hp]
    exact List.getElem_mem _
  have hpl : (rows.getD p []).length = n := hall _ hpm
  obtain ⟨q, hq⟩ := getD_finite _ (hfin _ hpm) cc (by omega)
  have hq0 : q ≠ 0 := ne_zero_of_not_Equals q (by rw [← hq]; exact hnz)
  obtain ⟨hnf, hone, -⟩ := normalised_row _ cc q (hfin _ hpm) (by omega) hq hq0
  intro row hrow
  rcases mem_PivotStep rows r p cc hr hp row hrow with h | h | ⟨lower, hl, h⟩
  · exact hfin row h
  · rw [h]
    exact hnf
  · rw [h]
    exact (eliminated_row _ lower cc (by rw [length_ScalarMult, hpl, hall lower hl])
      (by rw [length_ScalarMult]; omega) hnf (hfin lower hl) hone).1

/-- The iteration for row 0 and column 0 on finite rows reduces column 0. -/
theorem PivotStep_zero_done (rows : List Row) (n p : Nat) (hr : 0 < rows.length)
    (hp : p < rows.length) (hn : 0 < n) (hall : ∀ row ∈ rows, row.length = n)
    (hfin : ∀ row ∈ rows, ∀ x ∈ row, isFinite x = true)
    (hnz : Equals ((rows.getD p []).getD 0 zero) zero = false) :
    FirstColumnDone (PivotStep rows 0 p 0) := by
  have hpm : rows.getD p [] ∈ rows := by
    rw [List.getD_eq_getElem _ _ hp]
    exact List.getElem_mem _
  have hpl : (rows.getD p []).length = n := hall _ hpm
  obtain ⟨q, hq⟩ := getD_finite _ (hfin _ hpm) 0 (by omega)
  have hq0 : q ≠ 0 := ne_zero_of_not_Equals q (by rw [← hq]; exact hnz)
  obtain ⟨hnf, hone, -⟩ := normalised_row _ 0 q (hfin _ hpm) (by omega) hq hq0
  obtain ⟨others, hothers, heq⟩ := PivotStep_zero rows p 0 hr hp
  refine ⟨_, _, heq, hone, fun row hrow => ?_⟩
  obtain ⟨lower, hl, rfl⟩ := List.mem_map.1 hrow
  exact (eliminated_row _ lower 0 (by rw [length_ScalarMult, hpl, hall lower (hothers lower hl)])
    (by rw [length_ScalarMult]; omega) hnf (hfin lower (hothers lower hl)) hone).2.1

/-- An iteration for a row below the first, on finite rows whose column 0 is reduced,
leaves column 0 reduced. -/
theorem PivotStep_succ_done (rows : List Row) (n r p cc : Nat) (hr : r + 1 < rows.length)
    (hp : p + 1 < rows.length) (hn : 0 < n) (hcc : cc < n)
    (hall : ∀ row ∈ rows, row.length = n)
    (hfin : ∀ row ∈ rows, ∀ x ∈ row, isFinite x = true)
    (hnz : Equals ((rows.getD (p + 1) []).getD cc zero) zero = false)
    (hdone : FirstColumnDone rows) :
    FirstColumnDone (PivotStep rows (r + 1) (p + 1) cc) := by
  obtain ⟨first, rest, rfl, hfirst, hrest⟩ := hdone
  have hr1 : r < rest.length := by simpa using hr
  have hp1 : p < rest.length := by simpa using hp
  have hall1 : ∀ row ∈ rest, row.length = n := fun row h =>
    hall row (List.mem_cons_of_mem _ h)
  have hfin1 : ∀ row ∈ rest, ∀ x ∈ row, isFinite x = true := fun row h =>
    hfin row (List.mem_cons_of_mem _ h)
  have hnz1 : Equals ((rest.getD p []).getD cc zero) zero = false := by simpa using hnz
  have hpm : rest.getD p [] ∈ rest := by
    rw [List.getD_eq_getElem _ _ hp1]
    exact List.getElem_mem _
  have hpl : (rest.getD p []).length = n := hall1 _ hpm
  obtain ⟨q, hq⟩ := getD_finite _ (hfin1 _ hpm) cc (by omega)
  have hq0 : q ≠ 0 := ne_zero_of_not_Equals q (by rw [← hq]; exact hnz1)
  obtain ⟨hnf, hone, hkeep⟩ := normalised_row _ cc q (hfin1 _ hpm) (by omega) hq hq0
  have hpz := hkeep 0 (by omega) (hrest _ hpm)
  refine ⟨first, PivotStep rest r p cc, PivotStep_cons first rest r p cc, hfirst,
    fun row hrow => ?_⟩
  rcases mem_PivotStep rest r p cc hr1 hp1 row hrow with h | h | ⟨lower, hl, h⟩
  · exact hrest row h
  · rw [h]
    exact hpz
  · rw [h]
    exact (eliminated_row _ lower cc (by rw [length_ScalarMult, hpl, hall1 lower hl])
      (by rw [length_ScalarMult]; omega) hnf (hfin1 lower hl) hone).2.2 0
      (by rw [hall1 lower hl]; exact hn) (hrest lower hl) hpz

/-! ## The outer loop on a well-formed matrix -/

theorem WellFormed_with_rows (m : Matrix) (n : Nat) (rows : List Row)
    (hn : m.NCols = (n : Int)) (hL : m.NRows = (m.Rows.length : Int))
    (hlen : rows.length = m.Rows.length) (hall : ∀ row ∈ rows, row.length = n) :
    WellFormed { m with Rows := rows } := by
  refine ⟨by simp only [hlen, hL], fun row hrow => ?_⟩
  simp only [hn, hall row hrow]

/-- The outer loop, whenever it does not abort, keeps a well-formed matrix well formed. -/
theorem ReduceLoop_wellFormed (count : Nat) :
    ∀ (r : Nat) (m : Matrix) (state : Matrix × Int), WellFormed m → 0 < m.NCols →
      r + count = m.Rows.length → ReduceLoop count (r : Int) (m, (r : Int)) = some state →
      WellFormed state.1 := by
  induction count with
  | zero =>
    intro r m state hwf _ _ h
    simp only [ReduceLoop, Option.some.injEq] at h
    rw [← h]
    exact hwf
  | succ count ih =>
    intro r m state hwf hpos hlen h
    obtain ⟨n, hn⟩ := Int.eq_ofNat_of_zero_le (show 0 ≤ m.NCols by omega)
    have hall : ∀ row ∈ m.Rows, row.length = n := fun row hrow => by
      have := hwf.2 row hrow
      omega
    have hr : r < m.Rows.length := by omega
    have hcast : ((r : Int) + 1) = ((r + 1 : Nat) : Int) := by
      push_cast
      rfl
    by_cases hrn : r < n
    · rcases ReduceStep_cases m n r r hn hwf.1 hall hr hrn with
        ⟨hstep, -⟩ | ⟨p, hrp, hp, -, hstep⟩
      · simp only [ReduceLoop, hstep, hcast] at h
        exact ih (r + 1) m state hwf hpos (by omega) h
      · simp only [ReduceLoop, hstep, hcast] at h
        refine ih (r + 1) _ state
          (WellFormed_with_rows m n _ hn hwf.1 (length_PivotStep _ _ _ _)
            (PivotStep_uniform m.Rows n r p r hr hp hall))
          hpos (by simp only [length_PivotStep]; omega) h
    · have hnone := ReduceStep_none_of_ge m (r : Int) (r : Int) (by omega) (by omega)
      simp [ReduceLoop, hnone] at h

/-- The outer loop from a row below the first, on a well-formed matrix with finite entries,
no more rows than columns and column 0 reduced: the loop does not abort, and column 0 is
reduced in the matrix it ends with. -/
theorem ReduceLoop_done (count : Nat) :
    ∀ (r : Nat) (m : Matrix), WellFormed m → AllFinite m → 1 ≤ r →
      r + count = m.Rows.length → (m.Rows.length : Int) ≤ m.NCols →
      FirstColumnDone m.Rows →
      ∃ m1, ReduceLoop count (r : Int) (m, (r : Int)) = some (m1, ((r + count : Nat) : Int)) ∧
        WellFormed m1 ∧ m1.NRows = m.NRows ∧ m1.NCols = m.NCols ∧
        FirstColumnDone m1.Rows := by
  induction count with
  | zero =>
    intro r m hwf _ _ _ _ hdone
    exact ⟨m, rfl, hwf, rfl, rfl, hdone⟩
  | succ count ih =>
    intro r m hwf hfin hr1 hlen hle hdone
    obtain ⟨n, hn⟩ := Int.eq_ofNat_of_zero_le
      (show 0 ≤ m.NCols from le_trans (Int.ofNat_nonneg _) hle)
    have hall : ∀ row ∈ m.Rows, row.length = n := fun row hrow => by
      have := hwf.2 row hrow
      omega
    have hr : r < m.Rows.length := by omega
    have hrn : r < n := by omega
    have hcast : ((r : Int) + 1) = ((r + 1 : Nat) : Int) := by
      push_cast
      rfl
    have hsum : r + (count + 1) = r + 1 + count := by omega
    rcases ReduceStep_cases m n r r hn hwf.1 hall hr hrn with
      ⟨hstep, -⟩ | ⟨p, hrp, hp, hnz, hstep⟩
    · obtain ⟨m1, h1, h2⟩ := ih (r + 1) m hwf hfin (by omega) (by omega) hle hdone
      exact ⟨m1, by simp only [ReduceLoop, hstep, hcast, hsum, h1], h2⟩
    · obtain ⟨r0, rfl⟩ : ∃ r0, r = r0 + 1 := ⟨r - 1, by omega⟩
      obtain ⟨p0, rfl⟩ : ∃ p0, p = p0 + 1 := ⟨p - 1, by omega⟩
      have hwf1 : WellFormed { m with Rows := PivotStep m.Rows (r0 + 1) (p0 + 1) (r0 + 1) } :=
        WellFormed_with_rows m n _ hn hwf.1 (length_PivotStep _ _ _ _)
          (PivotStep_uniform m.Rows n _ _ _ hr hp hall)
      obtain ⟨m1, h1, h2, h3, h4, h5⟩ := ih (r0 + 1 + 1) _ hwf1
        (PivotStep_finite m.Rows n _ _ _ hr hp hrn hall hfin hnz) (by omega)
        (by simp only [length_PivotStep]; omega)
        (by simp only [length_PivotStep]; exact hle)
        (PivotStep_succ_done m.Rows n r0 p0 (r0 + 1) hr hp (by omega) hrn hall hfin hnz hdone)
      exact ⟨m1, by simp only [ReduceLoop, hstep, hcast, hsum, h1], h2, h3, h4, h5⟩

/-- Counterexample to C18 as stated: the well-formed 1 x 1 matrix `[[+Inf]]` has
`1 <= NRows <= NCols` and an entry in column 0 that is not `Equals` to `0.0`, and
`GaussianReduce` returns `[[NaN]]` (`1 / Inf` is `0` and `Inf * 0` is NaN), whose entry
`(0, 0)` is not `1`. -/
theorem C18_counterexample :
    WellFormed ⟨1, 1, [[pinf]]⟩ ∧ (1 : Int) ≤ (⟨1, 1, [[pinf]]⟩ : Matrix).NRows ∧
    (⟨1, 1, [[pinf]]⟩ : Matrix).NRows ≤ (⟨1, 1, [[pinf]]⟩ : Matrix).NCols ∧
    entry ⟨1, 1, [[pinf]]⟩ 0 0 = some pinf ∧ Equals pinf zero = false ∧
    GaussianReduce ⟨1, 1, [[pinf]]⟩ = some ⟨1, 1, [[nan]]⟩ ∧
    entry ⟨1, 1, [[nan]]⟩ 0 0 ≠ some one := by
  decide!

/-- C18, amended: on a well-formed matrix with finite entries (exact arithmetic) and
`1 <= NRows <= NCols` whose column 0 has an entry not `Equals` to `0.0`, the first iteration
of `GaussianReduce` selects a pivot `q` that is not zero in column 0 and replaces the rows
by `PivotStep` (the pivot row multiplied by `1 / q`, `EliminateRow` on every row below),
and `GaussianReduce` returns a matrix whose entry `(0, 0)` is `1` and whose entries
`(k, 0)` with `k >= 1` are `0`. -/
theorem C18_first_column_reduced (m : Matrix) (hwf : WellFormed m) (hfin : AllFinite m)
    (hrows : 1 ≤ m.NRows) (hle : m.NRows ≤ m.NCols)
    (hpivot : ∃ k : Nat, (k : Int) < m.NRows ∧
      ∃ x, entry m k 0 = some x ∧ Equals x zero = false) :
    (∃ (p : Nat) (q : ℚ), entry m p 0 = some (fin q) ∧ q ≠ 0 ∧
      ReduceStep (Copy m, 0) 0 = some ({ m with Rows := PivotStep m.Rows 0 p 0 }, 1)) ∧
    ∃ res, GaussianReduce m = some res ∧ entry res 0 0 = some one ∧
      ∀ k : Nat, 1 ≤ k → (k : Int) < m.NRows → entry res k 0 = some zero := by
  have hL : m.NRows = (m.Rows.length : Int) := hwf.1
  have hne : m.Rows ≠ [] := by
    intro h
    rw [h] at hL
    simp only [List.length_nil, Nat.cast_zero] at hL
    omega
  obtain ⟨n, hn⟩ := Int.eq_ofNat_of_zero_le (show 0 ≤ m.NCols by omega)
  have hall : ∀ row ∈ m.Rows, row.length = n := fun row hrow => by
    have := hwf.2 row hrow
    omega
  have hr : 0 < m.Rows.length := by omega
  have hn0 : 0 < n := by omega
  obtain ⟨count, hcount⟩ : ∃ count, m.Rows.length = count + 1 := ⟨m.Rows.length - 1, by omega⟩
  -- the iteration for row 0 finds a pivot
  obtain ⟨p, hp, hnz, hstep⟩ : ∃ p, p < m.Rows.length ∧
      Equals ((m.Rows.getD p []).getD 0 zero) zero = false ∧
      ReduceStep (m, 0) 0 = some ({ m with Rows := PivotStep m.Rows 0 p 0 }, 1) := by
    rcases ReduceStep_cases m n 0 0 hn hL hall hr hn0 with ⟨-, hzero⟩ | ⟨p, -, hp, hnz, hstep⟩
    · exfalso
      obtain ⟨k, hk, x, hx, hxz⟩ := hpivot
      have hk1 : k < m.Rows.length := by omega
      have hk0 : 0 < (m.Rows[k]).length := by
        rw [hall _ (List.getElem_mem _)]
        exact hn0
      have := hzero k (Nat.zero_le _) hk1
      simp only [entry, List.getElem?_eq_getElem hk1, Option.some_bind,
        List.getElem?_eq_getElem hk0, Option.some.injEq] at hx
      rw [List.getD_eq_getElem _ _ hk1, List.getD_eq_getElem _ _ hk0, hx, hxz] at this
      exact absurd this (by simp)
    · exact ⟨p, hp, hnz, by simpa using hstep⟩
  have hwf1 : WellFormed { m with Rows := PivotStep m.Rows 0 p 0 } :=
    WellFormed_with_rows m n _ hn hL (length_PivotStep _ _ _ _)
      (PivotStep_uniform m.Rows n 0 p 0 hr hp hall)
  obtain ⟨res, hloop, hwfr, hrR, hrC, first, rest, hrows1, hfirst, hrest⟩ :=
    ReduceLoop_done count 1 _ hwf1 (PivotStep_finite m.Rows n 0 p 0 hr hp hn0 hall hfin hnz)
      le_rfl (by simp only [length_PivotStep]; omega)
      (by simp only [length_PivotStep]; rw [← hL]; exact hle)
      (PivotStep_zero_done m.Rows n p hr hp hn0 hall hfin hnz)
  have hlenr : ∀ row ∈ res.Rows, 0 < row.length := fun row hrow => by
    have := hwfr.2 row hrow
    have hc : res.NCols = (n : Int) := by rw [hrC]; exact hn
    omega
  have hget : ∀ row ∈ res.Rows, row[0]? = some (row.getD 0 zero) := fun row hrow => by
    rw [List.getElem?_eq_getElem (hlenr row hrow), List.getD_eq_getElem _ _ (hlenr row hrow)]
  have hmech : ∃ (p : Nat) (q : ℚ), entry m p 0 = some (fin q) ∧ q ≠ 0 ∧
      ReduceStep (Copy m, 0) 0 = some ({ m with Rows := PivotStep m.Rows 0 p 0 }, 1) := by
    have hp0 : 0 < (m.Rows[p]).length := by
      rw [hall _ (List.getElem_mem _)]
      exact hn0
    have hpm : m.Rows.getD p [] ∈ m.Rows := by
      rw [List.getD_eq_getElem _ _ hp]
      exact List.getElem_mem _
    obtain ⟨q, hq⟩ := getD_finite _ (hfin _ hpm) 0 (by rw [hall _ hpm]; exact hn0)
    refine ⟨p, q, ?_, ne_zero_of_not_Equals q (by rw [← hq]; exact hnz), ?_⟩
    · rw [← hq]
      simp only [entry, List.getElem?_eq_getElem hp, Option.some_bind,
        List.getElem?_eq_getElem hp0, List.getD_eq_getElem m.Rows [] hp,
        List.getD_eq_getElem (m.Rows[p]) zero hp0]
    · rw [Copy_eq_self m hwf hne]
      exact hstep
  refine ⟨hmech, res, ?_, ?_, ?_⟩
  · have h0 : ¬ (m.NRows = 0 ∨ m.NCols = 0) := by omega
    simp only [GaussianReduce, Copy_eq_self m hwf hne, h0, if_false, hcount, ReduceLoop, hstep]
    simp only [Nat.cast_one] at hloop
    simp only [zero_add, hloop, Option.map_some']
  · simp only [entry, hrows1, List.getElem?_cons_zero, Option.some_bind]
    rw [hget first (by rw [hrows1]; exact List.mem_cons_self _ _), hfirst]
  · intro k hk1 hk
    obtain ⟨k0, rfl⟩ : ∃ k0, k = k0 + 1 := ⟨k - 1, by omega⟩
    have hlen : res.Rows.length = m.Rows.length := by
      have h1 := hwfr.1
      rw [hrR] at h1
      dsimp only at h1
      omega
    have hk0 : k0 < rest.length := by
      rw [hrows1] at hlen
      simp only [List.length_cons] at hlen
      omega
    simp only [entry, hrows1, List.getElem?_cons_succ, List.getElem?_eq_getElem hk0,
      Option.some_bind]
    have hmem : rest[k0] ∈ rest := List.getElem_mem _
    rw [hget _ (by rw [hrows1]; exact List.mem_cons_of_mem _ hmem), hrest _ hmem]

/-- Witness of C18: the second matrix of `TestGaussianReduce`. -/
theorem C18_first_column_reduced_witness :
    (∃ (p : Nat) (q : ℚ),
      entry ⟨2, 3, [[fin 2, fin (-4), fin (3 / 2)], [fin 6, fin (-4), fin 0]]⟩ p 0 =
        some (fin q) ∧ q ≠ 0 ∧
      ReduceStep
        (Copy ⟨2, 3, [[fin 2, fin (-4), fin (3 / 2)], [fin 6, fin (-4), fin 0]]⟩, 0) 0 =
        some (⟨2, 3, PivotStep [[fin 2, fin (-4), fin (3 / 2)], [fin 6, fin (-4), fin 0]]
          0 p 0⟩, 1)) ∧
    ∃ res, GaussianReduce ⟨2, 3, [[fin 2, fin (-4), fin (3 / 2)], [fin 6, fin (-4), fin 0]]⟩ =
        some res ∧ entry res 0 0 = some one ∧
      ∀ k : Nat, 1 ≤ k → (k : Int) < 2 → entry res k 0 = some zero :=
  C18_first_column_reduced
    ⟨2, 3, [[fin 2, fin (-4), fin (3 / 2)], [fin 6, fin (-4), fin 0]]⟩ (by decide)
    (by decide) (by decide) (by decide) ⟨0, by decide, fin 2, rfl, by decide!⟩

/-! ## Well-formedness -/

theorem mem_of_index {α : Type} (xs : List α) (i : Int) (x : α) (h : index xs i = some x) :
    x ∈ xs := by
  unfold index at h
  split_ifs at h
  exact List.getElem?_mem h

theorem assign_eq_some {α : Type} (xs ys : List α) (i : Int) (v : α)
    (h : assign xs i v = some ys) : ys = xs.set i.toNat v := by
  unfold assign at h
  split_ifs at h
  exact (Option.some.inj h).symm

/-- C20: well-formedness is kept by the package: `New` on success and `NewZero` on
non-negative arguments build well-formed matrices, and on a well-formed matrix `Copy` and
`GetTranspose` return a well-formed matrix, and `Set`, `SwapRows` and `GaussianReduce`,
whenever they return, leave or return a well-formed matrix. -/
theorem C20_wellFormed_invariant :
    (∀ rows m, New rows = (m, none) → WellFormed m) ∧
    (∀ nRows nCols : Int, 0 ≤ nRows → 0 ≤ nCols →
      ∃ m, NewZero nRows nCols = some m ∧ WellFormed m) ∧
    (∀ m, WellFormed m → WellFormed (Copy m)) ∧
    (∀ m, WellFormed m → ∃ t, GetTranspose m = some t ∧ WellFormed t) ∧
    (∀ m value i j m1 e, WellFormed m → Matrix.Set m value i j = some (m1, e) →
      WellFormed m1) ∧
    (∀ m i j m1 e, WellFormed m → SwapRows m i j = some (m1, e) → WellFormed m1) ∧
    (∀ m res, WellFormed m → GaussianReduce m = some res → WellFormed res) := by
  have hcopy : ∀ m, WellFormed m → WellFormed (Copy m) := by
    intro m hwf
    by_cases hne : m.Rows = []
    · simp [Copy, New, hne, WellFormed]
    · rw [Copy_eq_self m hwf hne]
      exact hwf
  refine ⟨?_, ?_, hcopy, ?_, ?_, ?_, ?_⟩
  · -- New
    intro rows m h
    cases rows with
    | nil =>
      simp only [New, Prod.mk.injEq, and_true] at h
      rw [← h]
      simp [WellFormed]
    | cons first rest =>
      cases hloop : NewLoop first.length (first :: rest) with
      | none => simp [New, hloop] at h
      | some rc =>
        obtain ⟨hall, hrc⟩ := (NewLoop_eq_some_iff _ _ _).1 hloop
        subst hrc
        simp only [New, hloop, Prod.mk.injEq, and_true] at h
        rw [← h]
        exact ⟨rfl, fun row hrow => by simp only [hall row hrow]⟩
  · -- NewZero
    intro nRows nCols h1 h2
    refine ⟨_, by unfold NewZero; rw [if_neg (by omega)], ?_, ?_⟩
    · simp only [List.length_replicate]
      omega
    · intro row hrow
      rw [List.eq_of_mem_replicate hrow]
      simp only [List.length_replicate]
      omega
  · -- GetTranspose
    intro m hwf
    by_cases hc0 : m.NCols ≤ 0
    · refine ⟨⟨0, 0, []⟩, ?_, by simp [WellFormed]⟩
      simp [GetTranspose, Int.toNat_eq_zero.2 hc0, GetTransposeLoop, New]
    · obtain ⟨c, hc⟩ := Int.eq_ofNat_of_zero_le (show 0 ≤ m.NCols by omega)
      have hall : ∀ row ∈ m.Rows, row.length = c := fun row hrow => by
        have := hwf.2 row hrow
        omega
      have hloop := GetTransposeLoop_eq m c hc hall c 0 (by omega)
      have hne : (List.range' 0 c).map (fun j => m.Rows.map (fun row => row.getD j zero)) ≠
          [] := by
        intro h
        have := congrArg List.length h
        simp at this
        omega
      have hnew := New_of_uniform _ m.Rows.length hne (by
        intro row hrow
        obtain ⟨j, -, rfl⟩ := List.mem_map.1 hrow
        simp)
      refine ⟨⟨(((List.range' 0 c).map
          (fun j => m.Rows.map (fun row => row.getD j zero))).length : Nat), (m.Rows.length : Int),
        (List.range' 0 c).map (fun j => m.Rows.map (fun row => row.getD j zero))⟩, ?_, ?_⟩
      · unfold GetTranspose
        rw [hc, Int.toNat_ofNat]
        rw [show ((0 : Nat) : Int) = 0 from rfl] at hloop
        rw [hloop, Option.map_some', hnew]
      · refine ⟨rfl, fun row hrow => ?_⟩
        obtain ⟨j, -, rfl⟩ := List.mem_map.1 hrow
        simp
  · -- Set
    intro m value i j m1 e hwf h
    unfold Matrix.Set at h
    split_ifs at h with hb
    · simp only [Option.some.injEq, Prod.mk.injEq] at h
      rw [← h.1]
      exact hwf
    · split at h
      · exact absurd h (by simp)
      · rename_i r hr
        split at h
        · exact absurd h (by simp)
        · rename_i r1 hr1
          simp only [Option.map_eq_some', Prod.mk.injEq] at h
          obtain ⟨rows, hrows, hm, -⟩ := h
          rw [← hm, assign_eq_some _ _ _ _ hrows, assign_eq_some _ _ _ _ hr1]
          refine ⟨by simpa using hwf.1, fun row hrow => ?_⟩
          rcases List.mem_or_eq_of_mem_set hrow with h1 | h1
          · exact hwf.2 row h1
          · rw [h1]
            simpa using hwf.2 r (mem_of_index _ _ _ hr)
  · -- SwapRows
    intro m i j m1 e hwf h
    unfold SwapRows at h
    split_ifs at h with h1 h2
    · simp only [Option.some.injEq, Prod.mk.injEq] at h
      rw [← h.1]
      exact hwf
    · simp only [Option.some.injEq, Prod.mk.injEq] at h
      rw [← h.1]
      exact hwf
    · split at h
      · rename_i row1 row2 hrow1 hrow2
        simp only [Option.map_eq_some', Option.bind_eq_some, Prod.mk.injEq] at h
        obtain ⟨rows, ⟨rows0, hrows0, hrows⟩, hm, -⟩ := h
        rw [← hm, assign_eq_some _ _ _ _ hrows, assign_eq_some _ _ _ _ hrows0]
        refine ⟨by simpa using hwf.1, fun row hrow => ?_⟩
        rcases List.mem_or_eq_of_mem_set hrow with h3 | h3
        · rcases List.mem_or_eq_of_mem_set h3 with h4 | h4
          · exact hwf.2 row h4
          · rw [h4]
            exact hwf.2 row2 (mem_of_index _ _ _ hrow2)
        · rw [h3]
          exact hwf.2 row1 (mem_of_index _ _ _ hrow1)
      · exact absurd h (by simp)
  · -- GaussianReduce
    intro m res hwf h
    unfold GaussianReduce at h
    simp only at h
    split_ifs at h with h0
    · rw [← Option.some.inj h]
      exact hcopy m hwf
    · have hne : m.Rows ≠ [] := by
        intro hnil
        have := hwf.1
        rw [hnil] at this
        simp only [List.length_nil, Nat.cast_zero] at this
        omega
      rw [Copy_eq_self m hwf hne] at h
      obtain ⟨state, hstate, hres⟩ := Option.map_eq_some'.1 h
      have hpos : 0 < m.NCols := by
        obtain ⟨row, hrow⟩ := List.exists_mem_of_ne_nil _ hne
        have := hwf.2 row hrow
        omega
      rw [← hres]
      exact ReduceLoop_wellFormed m.Rows.length 0 m state hwf hpos (by omega)
        (by simpa using hstate)

/-- Witness of C20: `GaussianReduce` on the second matrix of `TestGaussianReduce` returns
a well-formed matrix. -/
theorem C20_wellFormed_invariant_witness :
    WellFormed ⟨2, 3, [[fin 1, fin (-2), fin (3 / 4)], [fin 0, fin 1, fin (-9 / 16)]]⟩ :=
  C20_wellFormed_invariant.2.2.2.2.2.2
    ⟨2, 3, [[fin 2, fin (-4), fin (3 / 2)], [fin 6, fin (-4), fin 0]]⟩ _ (by decide)
    (by decide!)

/-! ## The pivot of an iteration -/

/-- The copy that `GaussianReduce` works on is well formed, whatever the matrix. -/
theorem WellFormed_Copy (m : Matrix) : WellFormed (Copy m) := by
  unfold Copy
  generalize m.Rows = rows
  cases rows with
  | nil => simp [New, WellFormed]
  | cons first rest =>
    cases hloop : NewLoop first.length (first :: rest) with
    | none => simp [New, hloop, WellFormed, Matrix.empty]
    | some rc =>
      obtain ⟨hall, hrc⟩ := (NewLoop_eq_some_iff _ _ _).1 hloop
      subst hrc
      simp only [New, hloop]
      exact ⟨rfl, fun row hrow => by simp only [hall row hrow]⟩

/-- After an iteration that found its pivot in row `p`, row `r` is the old row `p`
multiplied by `1 / pivot`, so the entry `(r, cc)` is `pivot * (1 / pivot)`. -/
theorem PivotStep_entry_diag (rows : List Row) (n r p cc : Nat) (hr : r < rows.length)
    (hp : p < rows.length) (hcc : cc < n) (hall : ∀ row ∈ rows, row.length = n) :
    ((PivotStep rows r p cc)[r]?).bind (fun row => row[cc]?) =
      some (mul ((rows.getD p []).getD cc zero)
        (div one ((rows.getD p []).getD cc zero))) := by
  have hpl : (rows.getD p []).length = n := by
    rw [List.getD_eq_getElem _ _ hp]
    exact hall _ (List.getElem_mem _)
  have hrow : (PivotStep rows r p cc)[r]? =
      some (Vector.ScalarMult (rows.getD p []) (div one ((rows.getD p []).getD cc zero))) := by
    simp only [PivotStep, swapped_getD rows r p hr]
    rw [List.getElem?_append_left (by simp; omega)]
    simp [List.getElem?_take, List.getElem?_set, hr]
  have hlen : cc < (Vector.ScalarMult (rows.getD p [])
      (div one ((rows.getD p []).getD cc zero))).length := by
    rw [length_ScalarMult, hpl]
    exact hcc
  rw [hrow, Option.some_bind, List.getElem?_eq_getElem hlen,
    ← List.getD_eq_getElem _ zero hlen, getD_ScalarMult _ _ cc (by rw [hpl]; exact hcc)]

theorem entry_eq_getD (m : Matrix) (n k j : Nat) (hall : ∀ row ∈ m.Rows, row.length = n)
    (hk : k < m.Rows.length) (hj : j < n) :
    entry m k j = some ((m.Rows.getD k []).getD j zero) := by
  have hjl : j < (m.Rows[k]).length := by
    rw [hall _ (List.getElem_mem _)]
    exact hj
  simp only [entry, List.getElem?_eq_getElem hk, Option.some_bind,
    List.getElem?_eq_getElem hjl, List.getD_eq_getElem m.Rows [] hk,
    List.getD_eq_getElem (m.Rows[k]) zero hjl]

/-- One iteration of the outer loop for the row index `r`, with the cursor on column `r`, on
a well-formed matrix: when it returns, either no pivot was selected and the matrix is as
before, or the pivot selected is the entry `(p, r)` of a row `p >= r`, which `SwapRows`
brings to the position `(r, r)` of the working matrix, and the rows become `PivotStep`,
whose entry `(r, r)` is `pivot * (1 / pivot)`. -/
theorem ReduceStep_diagonal (m : Matrix) (r : Nat) (hwf : WellFormed m)
    (hr : r < m.Rows.length) (state1 : Matrix × Int)
    (h : ReduceStep (m, (r : Int)) (r : Int) = some state1) :
    (state1.1 = m ∧ ∀ k x, r ≤ k → entry m k r = some x → Equals x zero = true) ∨
    (∃ (p : Nat) (pivot : Scalar) (swapped : Matrix) (e : Option Error),
      r ≤ p ∧ p < m.Rows.length ∧ entry m p r = some pivot ∧ Equals pivot zero = false ∧
      SwapRows m (r : Int) (p : Int) = some (swapped, e) ∧ entry swapped r r = some pivot ∧
      state1.1 = { swapped with Rows := PivotStep m.Rows r p r } ∧
      entry state1.1 r r = some (mul pivot (div one pivot))) := by
  obtain ⟨row0, hrow0⟩ := List.exists_mem_of_ne_nil m.Rows (by
    intro hnil
    rw [hnil] at hr
    exact absurd hr (by simp))
  obtain ⟨n, hn⟩ := Int.eq_ofNat_of_zero_le (show 0 ≤ m.NCols by
    have := hwf.2 row0 hrow0
    omega)
  have hall : ∀ row ∈ m.Rows, row.length = n := fun row hrow => by
    have := hwf.2 row hrow
    omega
  by_cases hrn : r < n
  · rcases ReduceStep_cases m n r r hn hwf.1 hall hr hrn with
      ⟨hstep, hzero⟩ | ⟨p, hrp, hp, hnz, hstep⟩
    · left
      rw [hstep] at h
      refine ⟨by rw [← Option.some.inj h], fun k x hk hx => ?_⟩
      have hkl : k < m.Rows.length := by
        by_contra hkl
        simp [entry, List.getElem?_eq_none (not_lt.1 hkl)] at hx
      rw [entry_eq_getD m n k r hall hkl hrn] at hx
      rw [← Option.some.inj hx]
      exact hzero k hk hkl
    · right
      rw [hstep] at h
      obtain ⟨e, hswap⟩ := SwapRows_getD m r p hr hp hwf.1
      refine ⟨p, (m.Rows.getD p []).getD r zero, _, e, hrp, hp,
        entry_eq_getD m n p r hall hp hrn, hnz, hswap, ?_, by rw [← Option.some.inj h], ?_⟩
      · have hS : ∀ row ∈ (m.Rows.set r (m.Rows.getD p [])).set p (m.Rows.getD r []),
            row.length = n := fun row hrow => hall row (mem_swapped m.Rows r p hr hp row hrow)
        rw [entry_eq_getD _ n r r hS (by simpa using hr) hrn]
        simp only [swapped_getD m.Rows r p hr]
      · rw [← Option.some.inj h]
        exact PivotStep_entry_diag m.Rows n r p r hr hp hrn hall
  · left
    by_cases hr0 : r = 0
    · subst hr0
      have hn0 : n = 0 := by omega
      have hcol : GetColumn m 0 = some ([], some Error.columnBounds) := by
        unfold GetColumn
        rw [if_pos (by omega)]
      have hstep : ReduceStep (m, 0) 0 = some (m, 0 + 1) := by
        simp [ReduceStep, hcol, sliceFrom, FindPivotLoop]
      rw [Nat.cast_zero, hstep] at h
      refine ⟨by rw [← Option.some.inj h], fun k x _ hx => ?_⟩
      exfalso
      simp only [entry, Option.bind_eq_some] at hx
      obtain ⟨row, hrow, hx⟩ := hx
      have hlen := hall row (List.getElem?_mem hrow)
      rw [hn0] at hlen
      rw [List.eq_nil_of_length_eq_zero hlen] at hx
      simp at hx
    · exfalso
      rw [ReduceStep_none_of_ge m (r : Int) (r : Int) (by omega) (by omega)] at h
      exact absurd h (by simp)

/-- An iteration for a row index `r` in range, with the cursor on column `r`, keeps a
well-formed matrix well formed, with the same number of rows and columns. -/
theorem ReduceStep_wellFormed (m : Matrix) (r : Nat) (hwf : WellFormed m)
    (hr : r < m.Rows.length) (state1 : Matrix × Int)
    (h : ReduceStep (m, (r : Int)) (r : Int) = some state1) :
    WellFormed state1.1 ∧ state1.1.NCols = m.NCols ∧
      state1.1.Rows.length = m.Rows.length := by
  rcases ReduceStep_diagonal m r hwf hr state1 h with
    ⟨hsame, -⟩ | ⟨p, pivot, swapped, e, -, hp, -, -, hswap, -, hst, -⟩
  · rw [hsame]
    exact ⟨hwf, rfl, rfl⟩
  · obtain ⟨e1, hs⟩ := SwapRows_getD m r p hr hp hwf.1
    rw [hs] at hswap
    have hsw := (Prod.mk.inj (Option.some.inj hswap)).1
    rw [hst, ← hsw]
    obtain ⟨row0, hrow0⟩ := List.exists_mem_of_ne_nil m.Rows (by
      intro hnil
      rw [hnil] at hr
      exact absurd hr (by simp))
    obtain ⟨n, hn⟩ := Int.eq_ofNat_of_zero_le (show 0 ≤ m.NCols by
      have := hwf.2 row0 hrow0
      omega)
    have hall : ∀ row ∈ m.Rows, row.length = n := fun row hrow => by
      have := hwf.2 row hrow
      omega
    exact ⟨WellFormed_with_rows m n _ hn hwf.1 (length_PivotStep _ _ _ _)
      (PivotStep_uniform m.Rows n r p r hr hp hall), rfl, length_PivotStep _ _ _ _⟩

/-- The states the outer loop reaches from a well-formed matrix are well formed, with the
same number of rows and columns. -/
theorem ReduceLoop_reached (count : Nat) :
    ∀ (r : Nat) (m : Matrix) (state : Matrix × Int), WellFormed m →
      r + count ≤ m.Rows.length → ReduceLoop count (r : Int) (m, (r : Int)) = some state →
      WellFormed state.1 ∧ state.1.NCols = m.NCols ∧
        state.1.Rows.length = m.Rows.length := by
  induction count with
  | zero =>
    intro r m state hwf _ h
    simp only [ReduceLoop, Option.some.injEq] at h
    rw [← h]
    exact ⟨hwf, rfl, rfl⟩
  | succ count ih =>
    intro r m state hwf hlen h
    cases hstep : ReduceStep (m, (r : Int)) (r : Int) with
    | none => simp [ReduceLoop, hstep] at h
    | some state1 =>
      obtain ⟨h1, h2, h3⟩ := ReduceStep_wellFormed m r hwf (by omega) state1 hstep
      have hc := (ReduceStep_some _ _ _ hstep).2
      obtain ⟨m1, c1⟩ := state1
      simp only at h1 h2 h3 hc
      subst hc
      simp only [ReduceLoop, hstep] at h
      rw [show ((r : Int) + 1) = ((r + 1 : Nat) : Int) by push_cast; rfl] at h
      obtain ⟨h4, h5, h6⟩ := ih (r + 1) m1 state h1 (by omega) h
      exact ⟨h4, by rw [h5, h2], by rw [h6, h3]⟩

/-- C19: in `GaussianReduce`, which runs its outer loop from the state `(m.Copy(), 0)`, the
state at the start of the iteration for row index `r` has `currentColumn = r`, and the
iteration, when it does not abort, ends with `currentColumn = r + 1` whether or not a pivot
was found.  Every pivot the reducer selects lies on the main diagonal of the working
matrix: in the iteration for a row `r` of the matrix, either no pivot is selected and the
matrix stays as it is, or the pivot is the entry `(p, r)` of a row `p >= r` that is not
`Equals` to `0.0`, `SwapRows(r, p)` brings it to the entry `(r, r)` of the working matrix,
and after the iteration the rows are `PivotStep` for row `r` and column `r`, with
`pivot * (1 / pivot)` as the entry `(r, r)`.  The first conjunct says that the state after
`r` iterations is the state at the start of iteration `r`. -/
theorem C19_cursor_equals_row (m : Matrix) (r k : Nat) :
    ReduceLoop (r + k) 0 (Copy m, 0) =
      (ReduceLoop r 0 (Copy m, 0)).bind (fun state => ReduceLoop k (r : Int) state) ∧
    ∀ state, ReduceLoop r 0 (Copy m, 0) = some state →
      state.2 = (r : Int) ∧
      ∀ state1, ReduceStep state (r : Int) = some state1 →
        state1.2 = (r : Int) + 1 ∧
        (r < (Copy m).Rows.length →
          (state1.1 = state.1 ∧
            ∀ i x, r ≤ i → entry state.1 i r = some x → Equals x zero = true) ∨
          (∃ (p : Nat) (pivot : Scalar) (swapped : Matrix) (e : Option Error),
            r ≤ p ∧ p < state.1.Rows.length ∧ entry state.1 p r = some pivot ∧
            Equals pivot zero = false ∧
            SwapRows state.1 (r : Int) (p : Int) = some (swapped, e) ∧
            entry swapped r r = some pivot ∧
            state1.1 = { swapped with Rows := PivotStep state.1.Rows r p r } ∧
            entry state1.1 r r = some (mul pivot (div one pivot)))) := by
  refine ⟨by simpa using ReduceLoop_add r k 0 (Copy m, 0), fun state h => ?_⟩
  have hc : state.2 = (r : Int) := by
    simpa using ReduceLoop_cursor r 0 (Copy m, 0) state h
  refine ⟨hc, fun state1 h1 => ⟨by rw [(ReduceStep_some state state1 _ h1).2, hc],
    fun hr => ?_⟩⟩
  have h0 : ReduceLoop r ((0 : Nat) : Int) (Copy m, ((0 : Nat) : Int)) = some state := by
    simpa using h
  obtain ⟨hwf, -, hlen⟩ := ReduceLoop_reached r 0 (Copy m) state (WellFormed_Copy m)
    (by omega) h0
  obtain ⟨sm, sc⟩ := state
  simp only at hc hwf hlen
  subst hc
  exact ReduceStep_diagonal sm r hwf (by omega) state1 h1

/-- Witness of C19: the second matrix of `TestGaussianReduce` at the start of the iteration
for row 1 and after it; the pivot `8` is the entry `(1, 1)`. -/
theorem C19_cursor_equals_row_witness :
    ((⟨2, 3, [[fin 1, fin (-2), fin (3 / 4)], [fin 0, fin 1, fin (-9 / 16)]]⟩ : Matrix) =
        ⟨2, 3, [[fin 1, fin (-2), fin (3 / 4)], [fin 0, fin 8, fin (-9 / 2)]]⟩ ∧
      ∀ i x, 1 ≤ i →
        entry ⟨2, 3, [[fin 1, fin (-2), fin (3 / 4)], [fin 0, fin 8, fin (-9 / 2)]]⟩ i 1 =
          some x → Equals x zero = true) ∨
    (∃ (p : Nat) (pivot : Scalar) (swapped : Matrix) (e : Option Error),
      1 ≤ p ∧ p < 2 ∧
      entry ⟨2, 3, [[fin 1, fin (-2), fin (3 / 4)], [fin 0, fin 8, fin (-9 / 2)]]⟩ p 1 =
        some pivot ∧
      Equals pivot zero = false ∧
      SwapRows ⟨2, 3, [[fin 1, fin (-2), fin (3 / 4)], [fin 0, fin 8, fin (-9 / 2)]]⟩
        ((1 : Nat) : Int) (p : Int) = some (swapped, e) ∧
      entry swapped 1 1 = some pivot ∧
      (⟨2, 3, [[fin 1, fin (-2), fin (3 / 4)], [fin 0, fin 1, fin (-9 / 16)]]⟩ : Matrix) =
        ⟨swapped.NRows, swapped.NCols,
          PivotStep [[fin 1, fin (-2), fin (3 / 4)], [fin 0, fin 8, fin (-9 / 2)]] 1 p 1⟩ ∧
      entry ⟨2, 3, [[fin 1, fin (-2), fin (3 / 4)], [fin 0, fin 1, fin (-9 / 16)]]⟩ 1 1 =
        some (mul pivot (div one pivot))) :=
  (((C19_cursor_equals_row
    ⟨2, 3, [[fin 2, fin (-4), fin (3 / 2)], [fin 6, fin (-4), fin 0]]⟩ 1 1).2
    (⟨2, 3, [[fin 1, fin (-2), fin (3 / 4)], [fin 0, fin 8, fin (-9 / 2)]]⟩, 1)
    (by decide!)).2
    (⟨2, 3, [[fin 1, fin (-2), fin (3 / 4)], [fin 0, fin 1, fin (-9 / 16)]]⟩, 2)
    (by decide!)).2 (by decide)

end matrix
